import Mathlib

set_option linter.unusedVariables false
set_option maxRecDepth 8192

/-
Shallow embedding of the tart adaptive radix tree node layer (src/node.rs) and
the range iterator (src/iter.rs).

Conventions of the embedding:
  - Rust `u8` bytes and `usize` indices become `Nat`; `u64` timestamps become
    `Nat` (no arithmetic in the embedded code can overflow 64 bits since it
    only takes maxima of existing values).
  - Keys are byte sequences, embedded as `List Nat`.
  - Child nodes are abstract: every interior-node operation is parametric in a
    child type `α` together with `tsOf : α → Nat`, mirroring the Rust
    `N: Timestamp` bound.
  - Fallible code paths (Rust panics: `unwrap`, `expect`, out-of-bounds
    indexing) are modelled by returning `Option`: `none` is a panic.
  - The Rust struct field `prefix` is called `pfx` here (`prefix` is a Lean
    keyword); no operation under proof inspects it.
-/

namespace Tart

/-- Lexicographic comparison of byte sequences, the `Ord`/`cmp` instance used
by the Rust code on byte-slice keys. -/
def cmpList : List Nat → List Nat → Ordering
  | [], [] => Ordering.eq
  | [], _ :: _ => Ordering.lt
  | _ :: _, [] => Ordering.gt
  | a :: as, b :: bs =>
    match compare a b with
    | Ordering.eq => cmpList as bs
    | o => o

/-- Rust `slice::binary_search_by` (the standard-library routine used by
`TwigNode::insert`): classic binary search over `[left, right)`, returning
`ok mid` when the comparator answers `eq` and `error left` when the window is
empty. The window size strictly decreases every iteration, so fuel
`xs.length + 1` is never exhausted; the fuel-0 and out-of-range reads are
unreachable defaults. -/
def binarySearchGo (f : α → Ordering) (xs : List α) : Nat → Nat → Nat → Except Nat Nat
  | left, _right, 0 => Except.error left
  | left, right, fuel + 1 =>
    if left < right then
      let size := right - left
      let mid := left + size / 2
      match xs[mid]? with
      | some v =>
        match f v with
        | Ordering.lt => binarySearchGo f xs (mid + 1) right fuel
        | Ordering.gt => binarySearchGo f xs left mid fuel
        | Ordering.eq => Except.ok mid
      | none => Except.error left
    else Except.error left

/-- Rust `slice::binary_search_by` entry point. -/
def binarySearchBy (f : α → Ordering) (xs : List α) : Except Nat Nat :=
  binarySearchGo f xs 0 xs.length (xs.length + 1)

/-- Checked array write: Rust `xs[i] = v` panics when `i` is out of bounds. -/
def setChecked (xs : List β) (i : Nat) (v : β) : Option (List β) :=
  if i < xs.length then some (xs.set i v) else none

/-- Rust `(0..n).rev().find(p)`: the largest `i < n` satisfying `p`. -/
def revFind (p : Nat → Bool) : Nat → Option Nat
  | 0 => none
  | n + 1 => if p n then some n else revFind p n

/-- Modelled from the spec: the repository's `VecArray<T, W>` source file is
not under src (only node.rs and iter.rs are); §4.1 of the spec describes it as
a fixed-capacity container of `Option<T>` slots. The storage is a list of
length `W` of optional values. `set` overwrites slot `i` (callers stay within
capacity). -/
def vaSet (storage : List (Option β)) (i : Nat) (v : β) : List (Option β) :=
  storage.set i (some v)

/-- Modelled from the spec: `VecArray::get`, `Some(&T)` iff slot `i` is
occupied. -/
def vaGet (storage : List (Option β)) (i : Nat) : Option β :=
  (storage[i]?).join

/-- Modelled from the spec: `VecArray::erase`, take and return slot `i`'s
value, leaving `None`. -/
def vaErase (storage : List (Option β)) (i : Nat) : Option β × List (Option β) :=
  (vaGet storage i, storage.set i none)

/-- Modelled from the spec: `VecArray::first_free_pos`, the lowest empty
index. -/
def vaFirstFreePos (storage : List (Option β)) : Nat :=
  (storage.findIdx? (fun s => s.isNone)).getD storage.length

/-- Modelled from the spec: `VecArray::iter` yields `(index, value)` for the
occupied slots in ascending index order; `i` is the index of the head slot. -/
def vaIterGo : Nat → List (Option β) → List (Nat × β)
  | _, [] => []
  | i, none :: rest => vaIterGo (i + 1) rest
  | i, some a :: rest => (i, a) :: vaIterGo (i + 1) rest

/-- Modelled from the spec: `VecArray::iter`. -/
def vaIter (storage : List (Option β)) : List (Nat × β) :=
  vaIterGo 0 storage

/-- Modelled from the spec: `VecArray::iter_keys`, the index stream of the
occupied slots. -/
def vaIterKeys (storage : List (Option β)) : List Nat :=
  (vaIter storage).map Prod.fst

/-- Strict ascending sortedness of a byte list (the invariant the spec states
for the occupied `keys` prefix of Flat4/Flat16). -/
def sortedAsc : List Nat → Bool
  | [] => true
  | [_] => true
  | a :: b :: rest => decide (a < b) && sortedAsc (b :: rest)

/-- The timestamps of the children present in a slot array, in slot order
(used to state independently what "the maximum ts among the children"
means). -/
def slotsTs (tsOf : α → Nat) (slots : List (Option α)) : List Nat :=
  slots.filterMap (fun s => s.map tsOf)

/-- First-match association lookup in a byte-to-child pair list (the
specification-side view of a node's byte-to-child mapping). -/
def assocFind (qs : List (Nat × β)) (b : Nat) : Option β :=
  (qs.find? (fun p => p.1 == b)).map Prod.snd

/-- One timestamped entry of a twig: `LeafValue { key, value, ts }`. -/
structure LeafValue (V : Type) where
  key : List Nat
  value : V
  ts : Nat
deriving DecidableEq, Repr

/-- Leaf node: `TwigNode { prefix, values, ts }`. -/
structure TwigNode (V : Type) where
  pfx : List Nat
  values : List (LeafValue V)
  ts : Nat
deriving DecidableEq, Repr

/-- `TwigNode::new`. -/
def TwigNode.new (pfx : List Nat) : TwigNode V :=
  { pfx := pfx, values := [], ts := 0 }

/-- `TwigNode::insert` (functional upsert). The key search is
`binary_search_by(|v| v.key.cmp(&key))`; on a hit the entry is overwritten at
that index, otherwise the new entry is inserted at the index found by
`binary_search_by(|v| v.ts.cmp(&new.ts))`. The new `ts` field is
`values.iter().map(ts).max().unwrap_or(self.ts)`. -/
def TwigNode.insert (t : TwigNode V) (key : List Nat) (value : V) (ts : Nat) :
    TwigNode V :=
  let new_leaf_value : LeafValue V := { key := key, value := value, ts := ts }
  let new_values :=
    match binarySearchBy (fun v => cmpList v.key key) t.values with
    | Except.ok existing_index => t.values.set existing_index new_leaf_value
    | Except.error _ =>
      let insertion_index :=
        match binarySearchBy (fun v => compare v.ts new_leaf_value.ts) t.values with
        | Except.ok index => index
        | Except.error index => index
      t.values.insertIdx insertion_index new_leaf_value
  { pfx := t.pfx
    values := new_values
    ts := ((new_values.map (fun v => v.ts)).max?).getD t.ts }

/-- Rust `Iterator::max_by_key(|v| v.ts)` over leaf values: the maximal-`ts`
element, the last one when several tie. -/
def maxByTs (l : List (LeafValue V)) : Option (LeafValue V) :=
  l.foldl
    (fun acc x =>
      match acc with
      | none => some x
      | some a => if a.ts ≤ x.ts then some x else some a)
    none

/-- `TwigNode::get_value_by_ts`: filter by key equality and `ts ≤ timestamp`,
then take the maximal-`ts` entry. -/
def TwigNode.get_value_by_ts (t : TwigNode V) (key : List Nat) (timestamp : Nat) :
    Option (LeafValue V) :=
  maxByTs (t.values.filter
    (fun v => cmpList v.key key == Ordering.eq && decide (v.ts ≤ timestamp)))

/-- Interior node with parallel arrays: `FlatNode<P, N, WIDTH>`. The konstant
WIDTH is the common length of `keys` and `children` (well-formedness ties the
two lengths together). -/
structure FlatNode (α : Type) where
  pfx : List Nat
  ts : Nat
  keys : List Nat
  children : List (Option α)
  num_children : Nat
deriving DecidableEq, Repr

/-- `FlatNode::new` for a given capacity. -/
def FlatNode.new (pfx : List Nat) (width : Nat) : FlatNode α :=
  { pfx := pfx
    ts := 0
    keys := List.replicate width 0
    children := List.replicate width none
    num_children := 0 }

/-- `FlatNode::find_pos`: reverse linear search for the largest occupied index
whose key exceeds the argument, defaulting to `num_children`. Always `some`.
The read `keys[i]` is in bounds whenever `num_children` does not exceed the
width, which every reachable node satisfies; `getD 0` is the unreachable
default. -/
def FlatNode.find_pos (n : FlatNode α) (key : Nat) : Option Nat :=
  match revFind (fun i => decide (key < n.keys.getD i 0)) n.num_children with
  | some i => some i
  | none => some n.num_children

/-- `FlatNode::index`: linear scan of the occupied key prefix. -/
def FlatNode.index (n : FlatNode α) (key : Nat) : Option Nat :=
  (n.keys.take (min n.keys.length n.num_children)).findIdx? (fun c => key == c)

/-- `FlatNode::clone`: a fresh node (zeroed arrays of the same width) with the
first `num_children` key/child slots copied over. -/
def FlatNode.clone (n : FlatNode α) : FlatNode α :=
  { pfx := n.pfx
    ts := n.ts
    keys :=
      n.keys.take n.num_children ++
        List.replicate (n.keys.length - n.num_children) 0
    children :=
      n.children.take n.num_children ++
        List.replicate (n.children.length - n.num_children) none
    num_children := n.num_children }

/-- The tail-shifting loop of `FlatNode::insert_child`:
`for i in (idx..num_children).rev() { keys[i+1] = keys[i]; children[i+1] = children[i] }`.
The counter `c` is the number of remaining iterations, so the current `i` is
`idx + c - 1`; reads and writes are bounds-checked like the Rust indexing. -/
def shiftTail (idx : Nat) :
    Nat → List Nat → List (Option α) → Option (List Nat × List (Option α))
  | 0, ks, cs => some (ks, cs)
  | c + 1, ks, cs => do
    let i := idx + c
    let k ← ks[i]?
    let ch ← cs[i]?
    let ks2 ← setChecked ks (i + 1) k
    let cs2 ← setChecked cs (i + 1) ch
    shiftTail idx c ks2 cs2

/-- `FlatNode::insert_child`: shift the tail right, then write the new key and
child at `idx` and bump `num_children`. -/
def FlatNode.insert_child (n : FlatNode α) (idx key : Nat) (node : α) :
    Option (FlatNode α) := do
  let (ks, cs) ← shiftTail idx (n.num_children - idx) n.keys n.children
  let ks2 ← setChecked ks idx key
  let cs2 ← setChecked cs idx (some node)
  some { n with keys := ks2, children := cs2, num_children := n.num_children + 1 }

/-- `FlatNode::max_child_ts`: fold of `max` over the occupied child slots. -/
def FlatNode.max_child_ts (tsOf : α → Nat) (n : FlatNode α) : Nat :=
  n.children.foldl
    (fun acc x =>
      match x with
      | some child => max acc (tsOf child)
      | none => acc)
    0

/-- `FlatNode::update_ts`: raise `ts` to the children's maximum when lower. -/
def FlatNode.update_ts (tsOf : α → Nat) (n : FlatNode α) : FlatNode α :=
  let max_child_ts := FlatNode.max_child_ts tsOf n
  if n.ts < max_child_ts then { n with ts := max_child_ts } else n

/-- `FlatNode::update_if_newer`: monotone raise of `ts`. -/
def FlatNode.update_if_newer (n : FlatNode α) (new_ts : Nat) : FlatNode α :=
  if new_ts > n.ts then { n with ts := new_ts } else n

/-- `FlatNode::add_child` (from `NodeTrait`): clone, find the insertion
position on `self`, raise the timestamp if the new child is newer, insert. -/
def FlatNode.add_child (tsOf : α → Nat) (n : FlatNode α) (key : Nat) (node : α) :
    Option (FlatNode α) :=
  let new_node := n.clone
  match n.find_pos key with
  | none => none
  | some idx =>
    let new_node := new_node.update_if_newer (tsOf node)
    new_node.insert_child idx key node

/-- `FlatNode::find_child`: scan the occupied key prefix, then read the child
slot at the found index (the outer `Option` is the bounds-check panic, the
inner one the result). -/
def FlatNode.find_child (n : FlatNode α) (key : Nat) : Option (Option α) :=
  match n.index key with
  | none => some none
  | some idx =>
    match n.children[idx]? with
    | none => none
    | some c => some c

/-- The left-shifting loop of `FlatNode::delete_child`:
`for i in idx..(WIDTH-1) { new.keys[i] = self.keys[i+1]; new.children[i] = self.children[i+1] }`.
Reads come from the original arrays `sk`/`sc` (Rust reads `self`), writes go
into the clone's arrays; `c` counts the remaining iterations starting at
`i`. -/
def delShiftGo (sk : List Nat) (sc : List (Option α)) :
    Nat → Nat → List Nat → List (Option α) → Option (List Nat × List (Option α))
  | _, 0, ks, cs => some (ks, cs)
  | i, c + 1, ks, cs => do
    let k ← sk[i + 1]?
    let ch ← sc[i + 1]?
    let ks2 ← setChecked ks i k
    let cs2 ← setChecked cs i ch
    delShiftGo sk sc (i + 1) c ks2 cs2

/-- `FlatNode::delete_child` (from `NodeTrait`): clone, locate the key in the
occupied prefix (`unwrap` panics when absent), clear that slot, shift the tail
left, zero the last slot, decrement the count and recompute `ts` as the
maximum child timestamp. -/
def FlatNode.delete_child (tsOf : α → Nat) (n : FlatNode α) (key : Nat) :
    Option (FlatNode α) := do
  let new_node := n.clone
  let idx ← (n.keys.take n.num_children).findIdx? (fun k => k == key)
  let cs0 ← setChecked new_node.children idx none
  let width := n.keys.length
  let (ks1, cs1) ← delShiftGo n.keys n.children idx (width - 1 - idx) new_node.keys cs0
  let ks2 ← setChecked ks1 (width - 1) 0
  let cs2 ← setChecked cs1 (width - 1) none
  let m := { new_node with
    keys := ks2
    children := cs2
    num_children := n.num_children - 1 }
  some { m with ts := FlatNode.max_child_ts tsOf m }

/-- `FlatNode::replace_child` (from `NodeTrait`): overwrite the slot of an
existing key (`unwrap` panics when absent) and recompute `ts` from the
children. -/
def FlatNode.replace_child (tsOf : α → Nat) (n : FlatNode α) (key : Nat) (node : α) :
    Option (FlatNode α) := do
  let new_node := n.clone
  let idx ← new_node.index key
  let ks2 ← setChecked new_node.keys idx key
  let cs2 ← setChecked new_node.children idx (some node)
  let m := { new_node with keys := ks2, children := cs2 }
  some { m with ts := FlatNode.max_child_ts tsOf m }

/-- `Node48 { prefix, ts, child_ptr_indexes, children, num_children }`: a
256-entry byte-to-slot index into a 48-slot sparse child vector. -/
structure Node48 (α : Type) where
  pfx : List Nat
  ts : Nat
  child_ptr_indexes : List (Option Nat)
  children : List (Option α)
  num_children : Nat
deriving DecidableEq, Repr

/-- `Node48::new`. -/
def Node48.new (pfx : List Nat) : Node48 α :=
  { pfx := pfx
    ts := 0
    child_ptr_indexes := List.replicate 256 none
    children := List.replicate 48 none
    num_children := 0 }

/-- `Node48::insert_child`: place the child at the first free slot and record
the slot index under the byte. -/
def Node48.insert_child (n : Node48 α) (key : Nat) (node : α) : Node48 α :=
  let pos := vaFirstFreePos n.children
  { n with
    child_ptr_indexes := vaSet n.child_ptr_indexes key pos
    children := vaSet n.children pos node
    num_children := n.num_children + 1 }

/-- `Node48::max_child_ts`: fold of `max` over the occupied child slots. -/
def Node48.max_child_ts (tsOf : α → Nat) (n : Node48 α) : Nat :=
  (vaIter n.children).foldl (fun acc x => max acc (tsOf x.2)) 0

/-- `Node48::update_ts`. -/
def Node48.update_ts (tsOf : α → Nat) (n : Node48 α) : Node48 α :=
  let max_child_ts := Node48.max_child_ts tsOf n
  if n.ts < max_child_ts then { n with ts := max_child_ts } else n

/-- `Node48::update_if_newer`. -/
def Node48.update_if_newer (n : Node48 α) (new_ts : Nat) : Node48 α :=
  if new_ts > n.ts then { n with ts := new_ts } else n

/-- `Node48::add_child` (from `NodeTrait`). -/
def Node48.add_child (tsOf : α → Nat) (n : Node48 α) (key : Nat) (node : α) :
    Node48 α :=
  let new_node := n.update_if_newer (tsOf node)
  new_node.insert_child key node

/-- `Node48::delete_child` (from `NodeTrait`): the index lookup `unwrap`s
(panics when the byte has no child), both arrays are erased, the count drops
and `ts` is recomputed from the remaining children. -/
def Node48.delete_child (tsOf : α → Nat) (n : Node48 α) (key : Nat) :
    Option (Node48 α) := do
  let pos ← vaGet n.child_ptr_indexes key
  let m := { n with
    child_ptr_indexes := (vaErase n.child_ptr_indexes key).2
    children := (vaErase n.children pos).2
    num_children := n.num_children - 1 }
  some { m with ts := Node48.max_child_ts tsOf m }

/-- `Node48::find_child` (from `NodeTrait`): both lookups use the checked
`VecArray::get`, so no panic is possible. -/
def Node48.find_child (n : Node48 α) (key : Nat) : Option α := do
  let idx ← vaGet n.child_ptr_indexes key
  vaGet n.children idx

/-- `Node256 { prefix, ts, children, num_children }`: a 256-slot sparse child
vector indexed directly by byte. -/
structure Node256 (α : Type) where
  pfx : List Nat
  ts : Nat
  children : List (Option α)
  num_children : Nat
deriving DecidableEq, Repr

/-- `Node256::new`. -/
def Node256.new (pfx : List Nat) : Node256 α :=
  { pfx := pfx
    ts := 0
    children := List.replicate 256 none
    num_children := 0 }

/-- `Node256::insert_child`. -/
def Node256.insert_child (n : Node256 α) (key : Nat) (node : α) : Node256 α :=
  { n with
    children := vaSet n.children key node
    num_children := n.num_children + 1 }

/-- `Node256::max_child_ts`. -/
def Node256.max_child_ts (tsOf : α → Nat) (n : Node256 α) : Nat :=
  (vaIter n.children).foldl (fun acc x => max acc (tsOf x.2)) 0

/-- `Node256::update_ts`. -/
def Node256.update_ts (tsOf : α → Nat) (n : Node256 α) : Node256 α :=
  let max_child_ts := Node256.max_child_ts tsOf n
  if n.ts < max_child_ts then { n with ts := max_child_ts } else n

/-- `Node256::update_if_newer`. -/
def Node256.update_if_newer (n : Node256 α) (new_ts : Nat) : Node256 α :=
  if new_ts > n.ts then { n with ts := new_ts } else n

/-- `Node256::add_child` (from `NodeTrait`). -/
def Node256.add_child (tsOf : α → Nat) (n : Node256 α) (key : Nat) (node : α) :
    Node256 α :=
  let new_node := n.update_if_newer (tsOf node)
  new_node.insert_child key node

/-- `Node256::find_child` (from `NodeTrait`): checked `VecArray::get`. -/
def Node256.find_child (n : Node256 α) (key : Nat) : Option α :=
  vaGet n.children key

/-- `Node256::delete_child` (from `NodeTrait`): erase the slot, decrement the
count only when something was removed, recompute `ts`. No lookup `unwrap`s,
so no panic is possible and the function is total. -/
def Node256.delete_child (tsOf : α → Nat) (n : Node256 α) (key : Nat) :
    Node256 α :=
  let removed := (vaErase n.children key).1
  let m := { n with
    children := (vaErase n.children key).2
    num_children :=
      if removed.isSome then n.num_children - 1 else n.num_children }
  { m with ts := Node256.max_child_ts tsOf m }

/-- The copy loop of `FlatNode::resize`:
`for i in 0..num_children { new.keys[i] = self.keys[i]; new.children[i] = self.children[i] }`,
ascending, with bounds-checked reads and writes; `i` is the number of
iterations already performed. -/
def copyInto (sk : List Nat) (sc : List (Option α)) :
    Nat → List Nat → List (Option α) → Option (List Nat × List (Option α))
  | 0, ks, cs => some (ks, cs)
  | i + 1, ks, cs => do
    let (ks1, cs1) ← copyInto sk sc i ks cs
    let k ← sk[i]?
    let ch ← sc[i]?
    let ks2 ← setChecked ks1 i k
    let cs2 ← setChecked cs1 i ch
    some (ks2, cs2)

/-- `FlatNode::resize::<NEW_WIDTH>`: copy the occupied prefix into a fresh
node of the new capacity, keep `ts` and the count, then `update_ts`. -/
def FlatNode.resize (tsOf : α → Nat) (n : FlatNode α) (newWidth : Nat) :
    Option (FlatNode α) := do
  let base : FlatNode α := FlatNode.new n.pfx newWidth
  let (ks, cs) ← copyInto n.keys n.children n.num_children base.keys base.children
  let m := { base with
    keys := ks
    children := cs
    ts := n.ts
    num_children := n.num_children }
  some (FlatNode.update_ts tsOf m)

/-- The loop of `FlatNode::grow`:
`for i in 0..num_children { if let Some(child) = children[i] { n48.insert_child(keys[i], child) } }`,
ascending, with bounds-checked reads. -/
def growGo (sk : List Nat) (sc : List (Option α)) : Nat → Node48 α → Option (Node48 α)
  | 0, m => some m
  | i + 1, m => do
    let m1 ← growGo sk sc i m
    let k ← sk[i]?
    let ch ← sc[i]?
    match ch with
    | some child => some (m1.insert_child k child)
    | none => some m1

/-- `FlatNode::grow`: re-insert every occupied child into a fresh `Node48`,
then `update_ts`. -/
def FlatNode.grow (tsOf : α → Nat) (n : FlatNode α) : Option (Node48 α) := do
  let n48 ← growGo n.keys n.children n.num_children (Node48.new n.pfx)
  some (Node48.update_ts tsOf n48)

/-- `Node48::shrink::<NEW_WIDTH>`: walk `child_ptr_indexes` in ascending byte
order, fetch each child (`unwrap`), find its flat insertion position
(`expect`) and insert; finally `update_ts`. -/
def Node48.shrink (tsOf : α → Nat) (n : Node48 α) (newWidth : Nat) :
    Option (FlatNode α) := do
  let start : FlatNode α := FlatNode.new n.pfx newWidth
  let fnode ← (vaIter n.child_ptr_indexes).foldlM
    (fun (fn : FlatNode α) kp => do
      let child ← vaGet n.children kp.2
      let idx ← fn.find_pos kp.1
      fn.insert_child idx kp.1 child)
    start
  some (FlatNode.update_ts tsOf fnode)

/-- `Node48::grow`: walk `child_ptr_indexes` in ascending byte order, fetch
each child (`unwrap`) and insert it into a fresh `Node256`; finally
`update_ts`. -/
def Node48.grow (tsOf : α → Nat) (n : Node48 α) : Option (Node256 α) := do
  let n256 ← (vaIter n.child_ptr_indexes).foldlM
    (fun (m : Node256 α) kp => do
      let child ← vaGet n.children kp.2
      some (m.insert_child kp.1 child))
    (Node256.new n.pfx)
  some (Node256.update_ts tsOf n256)

/-- `Node256::shrink`: walk the occupied byte keys in ascending order, fetch
each child (`unwrap`) and insert it into a fresh `Node48`; finally
`update_ts`. -/
def Node256.shrink (tsOf : α → Nat) (n : Node256 α) : Option (Node48 α) := do
  let keys := vaIterKeys n.children
  let indexed ← keys.foldlM
    (fun (m : Node48 α) key => do
      let child ← vaGet n.children key
      some (m.insert_child key child))
    (Node48.new n.pfx)
  some (Node48.update_ts tsOf indexed)

/-- `std::ops::Bound` over byte-sequence keys, as used by the range
iterator. -/
inductive RBound where
  | Included (k : List Nat)
  | Excluded (k : List Nat)
  | Unbounded
deriving DecidableEq, Repr

/-- `RangeResult` from iter.rs. -/
inductive RangeResult (V : Type) where
  | Continue
  | Yield (item : Option (List Nat × V × Nat))
deriving DecidableEq, Repr

/-- The state of `RangeIterator`: the remaining items of the underlying
in-order iterator (each a `(key bytes, value, ts)` triple) and the end
bound. -/
structure RangeIteratorState (V : Type) where
  iter : List (List Nat × V × Nat)
  end_bound : RBound
deriving DecidableEq, Repr

/-- `RangeIterator::next` from iter.rs: pull the next underlying item; a key
equal to an `Included` bound yields `Continue`, equal to an `Excluded` bound
yields `Yield(None)`, anything else is yielded. -/
def rangeIteratorNext (st : RangeIteratorState V) :
    RangeResult V × RangeIteratorState V :=
  match st.iter with
  | [] => (RangeResult.Yield none, st)
  | item :: rest =>
    let st2 : RangeIteratorState V := { st with iter := rest }
    match st.end_bound with
    | RBound.Included k =>
      if item.1 == k then (RangeResult.Continue, st2)
      else (RangeResult.Yield (some item), st2)
    | RBound.Excluded k =>
      if item.1 == k then (RangeResult.Yield none, st2)
      else (RangeResult.Yield (some item), st2)
    | RBound.Unbounded => (RangeResult.Yield (some item), st2)

/-- The `inner` field of `Range`: either the `EmptyRangeIterator` or a live
`RangeIterator`. -/
inductive RangeInner (V : Type) where
  | emptyIter
  | rangeIter (st : RangeIteratorState V)
deriving DecidableEq, Repr

/-- `Range::next` from iter.rs, with `RangeIterator::next` unfolded (the
recursion in the `Continue` arm is on the strictly shorter remaining list, so
the unfolding makes the function structurally recursive): on `Continue` the
result is taken from a recursive `next` on the advanced iterator and the inner
iterator is then replaced by the empty one; `Yield(item)` is returned
directly. -/
def rangeNextAux (b : RBound) :
    List (List Nat × V × Nat) → Option (List Nat × V × Nat) × RangeInner V
  | [] => (none, RangeInner.rangeIter { iter := [], end_bound := b })
  | item :: rest =>
    match b with
    | RBound.Included k =>
      if item.1 == k then ((rangeNextAux b rest).1, RangeInner.emptyIter)
      else (some item, RangeInner.rangeIter { iter := rest, end_bound := b })
    | RBound.Excluded k =>
      if item.1 == k then (none, RangeInner.rangeIter { iter := rest, end_bound := b })
      else (some item, RangeInner.rangeIter { iter := rest, end_bound := b })
    | RBound.Unbounded =>
      (some item, RangeInner.rangeIter { iter := rest, end_bound := b })

/-- `Range::next`: dispatch on the inner iterator. -/
def rangeNext : RangeInner V → Option (List Nat × V × Nat) × RangeInner V
  | RangeInner.emptyIter => (none, RangeInner.emptyIter)
  | RangeInner.rangeIter st => rangeNextAux st.end_bound st.iter

/-- Driving the `Range` iterator to exhaustion, collecting the yielded items
in order (Rust iteration stops at the first `None`). Fuel bounds the number
of `next` calls; `length + 1` calls always suffice. -/
def rangeCollect : Nat → RangeInner V → List (List Nat × V × Nat)
  | 0, _ => []
  | fuel + 1, inner =>
    match rangeNext inner with
    | (none, _) => []
    | (some it, inner2) => it :: rangeCollect fuel inner2

/-- `Range::for_iter`: the range iterator over a given underlying iterator
output and end bound. -/
def rangeForIter (items : List (List Nat × V × Nat)) (end_bound : RBound) :
    RangeInner V :=
  RangeInner.rangeIter { iter := items, end_bound := end_bound }

/-
Theorems. First the supporting lemmas, then one theorem per claim.
-/

/-- Sanity: `rangeNextAux` is exactly `Range::next` with `RangeIterator::next`
left folded in: dispatching on `rangeIteratorNext` reproduces it. -/
theorem rangeNext_eq_dispatch (st : RangeIteratorState V) :
    rangeNext (RangeInner.rangeIter st) =
      match rangeIteratorNext st with
      | (RangeResult.Continue, st2) =>
        ((rangeNext (RangeInner.rangeIter st2)).1, RangeInner.emptyIter)
      | (RangeResult.Yield item, st2) => (item, RangeInner.rangeIter st2) := by
  obtain ⟨iter, b⟩ := st
  cases iter with
  | nil => cases b <;> rfl
  | cons item rest =>
    cases b with
    | Included k =>
      by_cases h : item.1 == k <;>
        simp [rangeNext, rangeNextAux, rangeIteratorNext, h]
    | Excluded k =>
      by_cases h : item.1 == k <;>
        simp [rangeNext, rangeNextAux, rangeIteratorNext, h]
    | Unbounded => rfl

/-- A successful binary search returns an index that reads inside the list. -/
theorem binarySearchGo_ok_lt (f : α → Ordering) (xs : List α) :
    ∀ fuel left right i, binarySearchGo f xs left right fuel = Except.ok i →
      i < xs.length := by
  intro fuel
  induction fuel with
  | zero => intro left right i h; simp [binarySearchGo] at h
  | succ fuel ih =>
    intro left right i h
    rw [binarySearchGo] at h
    split at h
    · simp only at h
      split at h
      · rename_i v hx
        split at h
        · exact ih _ _ _ h
        · exact ih _ _ _ h
        · cases h
          exact (List.getElem?_eq_some_iff.mp hx).1
      · simp at h
    · simp at h

/-- A failed binary search over a window inside the list returns an index not
exceeding the list length. -/
theorem binarySearchGo_err_le (f : α → Ordering) (xs : List α) :
    ∀ fuel left right i, left ≤ xs.length → right ≤ xs.length →
      binarySearchGo f xs left right fuel = Except.error i → i ≤ xs.length := by
  intro fuel
  induction fuel with
  | zero =>
    intro left right i hl _ h
    simp only [binarySearchGo] at h
    cases h; omega
  | succ fuel ih =>
    intro left right i hl hr h
    rw [binarySearchGo] at h
    split at h
    · rename_i hlr
      simp only at h
      split at h
      · rename_i v hx
        have hmid : left + (right - left) / 2 < xs.length :=
          (List.getElem?_eq_some_iff.mp hx).1
        split at h
        · exact ih _ _ _ (by omega) hr h
        · exact ih _ _ _ hl (by omega) h
        · simp at h
      · cases h; omega
    · cases h; omega

/-- Folding `max` from the left over naturals equals `max` of the seed with
the right fold from 0. -/
theorem foldl_max_eq (l : List Nat) : ∀ a, l.foldl max a = max a (l.foldr max 0) := by
  induction l with
  | nil => intro a; simp
  | cons b bs ih =>
    intro a
    simp only [List.foldl_cons, List.foldr_cons, ih (max a b)]
    omega

/-- On a nonempty list `max?.getD` ignores the default and computes the
maximum. -/
theorem max?_getD_of_ne_nil (l : List Nat) (h : l ≠ []) (d : Nat) :
    (l.max?).getD d = l.foldr max 0 := by
  cases l with
  | nil => exact absurd rfl h
  | cons a as => simp [List.max?, foldl_max_eq]

/-- C3: evaluating `TwigNode::insert` at the failing input. The twig built by
inserting key `[2]` at ts 1 and then key `[1]` at ts 2 stores its values in ts
order, which is not key order; the binary search by key of a further
`insert([2], 7, 3)` then misses the existing `[2]` entry, so a duplicate entry
for `[2]` is appended: the filter on key `[2]` grows from one entry to two and
the length grows by one, where the claim demands a same-length in-place
replacement and no duplicate. -/
theorem claim_C3_twig_insert_duplicate :
    (((((TwigNode.new [] : TwigNode Nat).insert [2] 0 1).insert [1] 0 2).insert
        [2] 7 3).values.filter (fun v => v.key == [2])).length = 2 ∧
      (((((TwigNode.new [] : TwigNode Nat).insert [2] 0 1).insert [1] 0 2)).values.filter
        (fun v => v.key == [2])).length = 1 ∧
      ((((TwigNode.new [] : TwigNode Nat).insert [2] 0 1).insert [1] 0 2).insert
          [2] 7 3).values.length
        = ((((TwigNode.new [] : TwigNode Nat).insert [2] 0 1).insert [1] 0 2)).values.length
            + 1 := by
  exact ⟨by decide, by decide, by decide⟩

/-- C4 (counterexample): the claim states the new twig `ts` is
`max(old self.ts, max ts over the new values)`. For the reachable twig holding
key `[1]` at ts 10 (so with `ts = 10`), re-inserting key `[1]` at ts 5
replaces the entry and the code computes `ts = 5`, not
`max(10, 5) = 10`. -/
theorem claim_C4_counterexample :
    (((TwigNode.new [] : TwigNode Nat).insert [1] 0 10).insert [1] 0 5).ts = 5 ∧
      ((TwigNode.new [] : TwigNode Nat).insert [1] 0 10).ts = 10 ∧
      (((TwigNode.new [] : TwigNode Nat).insert [1] 0 10).insert [1] 0 5).ts ≠
        max ((TwigNode.new [] : TwigNode Nat).insert [1] 0 10).ts
          ((((((TwigNode.new [] : TwigNode Nat).insert [1] 0 10).insert [1] 0
              5)).values.map (fun v => v.ts)).foldr max 0) := by
  exact ⟨by decide, by decide, by decide⟩

/-- A successful `binarySearchBy` index reads inside the list. -/
theorem binarySearchBy_ok_lt (f : α → Ordering) (xs : List α) (i : Nat)
    (h : binarySearchBy f xs = Except.ok i) : i < xs.length :=
  binarySearchGo_ok_lt f xs _ _ _ _ h

/-- A failed `binarySearchBy` insertion index never exceeds the list
length. -/
theorem binarySearchBy_err_le (f : α → Ordering) (xs : List α) (i : Nat)
    (h : binarySearchBy f xs = Except.error i) : i ≤ xs.length :=
  binarySearchGo_err_le f xs _ _ _ _ (Nat.zero_le _) (Nat.le_refl _) h

/-- Inserting at an index within bounds never yields the empty list. -/
theorem insertIdx_ne_nil (j : Nat) (x : β) (l : List β) (h : j ≤ l.length) :
    l.insertIdx j x ≠ [] := by
  cases j with
  | zero => simp
  | succ k =>
    cases l with
    | nil => simp at h
    | cons a l2 => simp [List.insertIdx_succ_cons]

/-- Setting a slot of a nonempty list never yields the empty list. -/
theorem set_ne_nil (l : List β) (i : Nat) (x : β) (h : 0 < l.length) :
    l.set i x ≠ [] := by
  cases l with
  | nil => simp at h
  | cons a l2 => cases i <;> simp

/-- `TwigNode::insert` always produces a nonempty values list: it either
overwrites an existing slot or inserts a fresh entry at an index within
bounds. -/
theorem insert_values_ne_nil (t : TwigNode V) (key : List Nat) (value : V)
    (ts : Nat) : (t.insert key value ts).values ≠ [] := by
  show (match binarySearchBy (fun v => cmpList v.key key) t.values with
    | Except.ok existing_index =>
      t.values.set existing_index { key := key, value := value, ts := ts }
    | Except.error _ =>
      t.values.insertIdx
        (match binarySearchBy (fun v => compare v.ts ts) t.values with
          | Except.ok index => index
          | Except.error index => index) { key := key, value := value, ts := ts }) ≠ []
  rcases hbs : binarySearchBy (fun v => cmpList v.key key) t.values with i | i <;>
    rw [hbs]
  · show t.values.insertIdx _ _ ≠ []
    apply insertIdx_ne_nil
    rcases hbs2 : binarySearchBy (fun v => compare v.ts ts) t.values with j | j <;>
      rw [hbs2]
    · exact binarySearchBy_err_le _ _ _ hbs2
    · exact Nat.le_of_lt (binarySearchBy_ok_lt _ _ _ hbs2)
  · show t.values.set i _ ≠ []
    apply set_ne_nil
    have hi : i < t.values.length := binarySearchBy_ok_lt _ _ _ hbs
    omega

/-- C4 (amended): the twig returned by `insert` always has a nonempty values
list, and its `ts` field equals the maximum `ts` over the entries of that new
values list alone; the old `self.ts` would be used only for an empty result
list, which `insert` never produces (so `ts` can drop below the old value when
a replacement lowers the maximum, and the claimed `max` with the old `ts` does
not hold). -/
theorem claim_C4_amended (t : TwigNode V) (key : List Nat) (value : V) (ts : Nat) :
    (t.insert key value ts).values ≠ [] ∧
      (t.insert key value ts).ts
        = ((t.insert key value ts).values.map (fun v => v.ts)).foldr max 0 := by
  refine ⟨insert_values_ne_nil t key value ts, ?_⟩
  show ((((t.insert key value ts).values.map (fun v => v.ts)).max?).getD t.ts) = _
  apply max?_getD_of_ne_nil
  simpa using insert_values_ne_nil t key value ts

/-- The fold of Rust `max_by_key` starting from `some a`: the result is `a` or
a member, its `ts` dominates `a.ts` and every member's `ts`. -/
theorem maxByTs_fold_some (l : List (LeafValue V)) :
    ∀ a e, l.foldl
        (fun acc x =>
          match acc with
          | none => some x
          | some c => if c.ts ≤ x.ts then some x else some c)
        (some a) = some e →
      (e = a ∨ e ∈ l) ∧ a.ts ≤ e.ts ∧ ∀ x ∈ l, x.ts ≤ e.ts := by
  induction l with
  | nil => intro a e h; simp_all
  | cons b bs ih =>
    intro a e h
    simp only [List.foldl_cons] at h
    by_cases hle : a.ts ≤ b.ts
    · rw [if_pos hle] at h
      obtain ⟨hmem, hdom, hall⟩ := ih b e h
      refine ⟨?_, ?_, ?_⟩
      · rcases hmem with rfl | hmem
        · exact Or.inr (List.mem_cons_self _ _)
        · exact Or.inr (List.mem_cons_of_mem _ hmem)
      · omega
      · intro x hx
        rcases List.mem_cons.mp hx with rfl | hx
        · exact hdom
        · exact hall x hx
    · rw [if_neg hle] at h
      obtain ⟨hmem, hdom, hall⟩ := ih a e h
      refine ⟨?_, hdom, ?_⟩
      · rcases hmem with rfl | hmem
        · exact Or.inl rfl
        · exact Or.inr (List.mem_cons_of_mem _ hmem)
      · intro x hx
        rcases List.mem_cons.mp hx with rfl | hx
        · omega
        · exact hall x hx

/-- `maxByTs` is `none` exactly on the empty list. -/
theorem maxByTs_eq_none_iff (l : List (LeafValue V)) :
    maxByTs l = none ↔ l = [] := by
  cases l with
  | nil => simp [maxByTs]
  | cons a as =>
    simp only [maxByTs, List.foldl_cons]
    constructor
    · intro h
      exfalso
      induction as generalizing a with
      | nil => simp at h
      | cons b bs ih =>
        simp only [List.foldl_cons] at h
        by_cases hle : a.ts ≤ b.ts
        · rw [if_pos hle] at h; exact ih b h
        · rw [if_neg hle] at h; exact ih a h
    · intro h; cases h

/-- `maxByTs` of a nonempty list is a member whose `ts` dominates the list. -/
theorem maxByTs_eq_some (l : List (LeafValue V)) (e : LeafValue V)
    (h : maxByTs l = some e) : e ∈ l ∧ ∀ x ∈ l, x.ts ≤ e.ts := by
  cases l with
  | nil => simp [maxByTs] at h
  | cons a as =>
    simp only [maxByTs, List.foldl_cons] at h
    obtain ⟨hmem, _, hall⟩ := maxByTs_fold_some as a e h
    refine ⟨?_, ?_⟩
    · rcases hmem with rfl | hmem
      · exact List.mem_cons_self _ _
      · exact List.mem_cons_of_mem _ hmem
    · intro x hx
      rcases List.mem_cons.mp hx with rfl | hx
      · exact (maxByTs_fold_some as x e h).2.1
      · exact hall x hx

/-- Byte-sequence comparison answers `eq` exactly on equal sequences. -/
theorem cmpList_eq_iff (a b : List Nat) : cmpList a b = Ordering.eq ↔ a = b := by
  induction a generalizing b with
  | nil => cases b <;> simp [cmpList]
  | cons x xs ih =>
    cases b with
    | nil => simp [cmpList]
    | cons y ys =>
      simp only [cmpList]
      rcases hc : compare x y with _ | _ | _
      · simp only []
        constructor
        · intro h; simp at h
        · intro h
          obtain ⟨h1, _⟩ := List.cons.injEq x xs y ys ▸ h
          injection h with h1 h2
          subst h1
          simp [compare_eq_iff_eq.mpr rfl] at hc
      · have hxy : x = y := compare_eq_iff_eq.mp hc
        subst hxy
        simp only []
        rw [ih]
        constructor
        · intro h; rw [h]
        · intro h; injection h
      · simp only []
        constructor
        · intro h; simp at h
        · intro h
          injection h with h1 h2
          subst h1
          simp [compare_eq_iff_eq.mpr rfl] at hc

/-- C5: `get_value_by_ts(key, bound)` returns `none` exactly when no stored
entry has that key with `ts` at most the bound, and any returned entry is a
stored entry with that key, with `ts` at most the bound, and with maximal `ts`
among all such entries. -/
theorem claim_C5_get_value_by_ts (t : TwigNode V) (k : List Nat) (T : Nat) :
    (t.get_value_by_ts k T = none ↔ ∀ v ∈ t.values, ¬(v.key = k ∧ v.ts ≤ T)) ∧
      ∀ e, t.get_value_by_ts k T = some e →
        e ∈ t.values ∧ e.key = k ∧ e.ts ≤ T ∧
          ∀ v ∈ t.values, v.key = k → v.ts ≤ T → v.ts ≤ e.ts := by
  have hmem : ∀ v : LeafValue V,
      (v ∈ t.values.filter
        (fun v => cmpList v.key k == Ordering.eq && decide (v.ts ≤ T)))
      ↔ v ∈ t.values ∧ (v.key = k ∧ v.ts ≤ T) := by
    intro v
    rw [List.mem_filter]
    constructor
    · rintro ⟨h1, h2⟩
      rw [Bool.and_eq_true] at h2
      obtain ⟨h2a, h2b⟩ := h2
      refine ⟨h1, ?_, of_decide_eq_true h2b⟩
      rcases hc : cmpList v.key k with _ | _ | _ <;> rw [hc] at h2a
      · exact absurd h2a (by decide)
      · exact (cmpList_eq_iff _ _).mp hc
      · exact absurd h2a (by decide)
    · rintro ⟨h1, h2, h3⟩
      refine ⟨h1, ?_⟩
      rw [Bool.and_eq_true]
      refine ⟨?_, decide_eq_true h3⟩
      rw [(cmpList_eq_iff _ _).mpr h2]
      rfl
  constructor
  · rw [show t.get_value_by_ts k T = maxByTs _ from rfl, maxByTs_eq_none_iff]
    constructor
    · intro h v hv hcon
      have : v ∈ t.values.filter
          (fun v => cmpList v.key k == Ordering.eq && decide (v.ts ≤ T)) :=
        (hmem v).mpr ⟨hv, hcon⟩
      rw [h] at this
      simp at this
    · intro h
      rcases hl : t.values.filter
          (fun v => cmpList v.key k == Ordering.eq && decide (v.ts ≤ T)) with _ | ⟨v, vs⟩
      · exact hl
      · exfalso
        have hv : v ∈ t.values.filter
            (fun v => cmpList v.key k == Ordering.eq && decide (v.ts ≤ T)) := by
          rw [hl]; exact List.mem_cons_self _ _
        obtain ⟨h1, h2, h3⟩ := (hmem v).mp hv
        exact h v h1 ⟨h2, h3⟩
  · intro e he
    obtain ⟨hml, hall⟩ := maxByTs_eq_some _ _ he
    obtain ⟨h1, h2, h3⟩ := (hmem e).mp hml
    refine ⟨h1, h2, h3, ?_⟩
    intro v hv hk hT
    exact hall v ((hmem v).mpr ⟨hv, hk, hT⟩)

/-- C5 witness: the general theorem applied to a concrete twig holding two
entries for key `[1]` (ts 3 and 5) and one for `[2]`, at bound 4. -/
theorem claim_C5_witness :
    ({ pfx := [], values := [⟨[1],0,3⟩, ⟨[1],1,5⟩, ⟨[2],2,9⟩], ts := 9 }
        : TwigNode Nat).get_value_by_ts [1] 4 = some ⟨[1],0,3⟩ ∧
      (⟨[1],0,3⟩ : LeafValue Nat) ∈
        ({ pfx := [], values := [⟨[1],0,3⟩, ⟨[1],1,5⟩, ⟨[2],2,9⟩], ts := 9 }
          : TwigNode Nat).values ∧
      (⟨[1],(0:Nat),3⟩ : LeafValue Nat).key = [1] ∧
      (⟨[1],(0:Nat),3⟩ : LeafValue Nat).ts ≤ 4 := by
  have h := (claim_C5_get_value_by_ts
    ({ pfx := [], values := [⟨[1],0,3⟩, ⟨[1],1,5⟩, ⟨[2],2,9⟩], ts := 9 }
      : TwigNode Nat) [1] 4).2 ⟨[1],0,3⟩ (by decide)
  exact ⟨by decide, h.1, h.2.1, h.2.2.1⟩

/-- C1: evaluation of the range iterator at the failing input. With the
underlying in-order iterator yielding the items with keys `[1]`, `[2]`, `[3]`
and end bound `Included [2]`, the code yields the `[1]` item and then the
`[3]` item before stopping: on meeting the matching key it recurses to fetch
the following item and then empties itself, so the matching item is dropped
and its successor yielded, where the claim demands yielding the `[1]` item,
then the matching `[2]` item, then nothing. The `Excluded [2]` half behaves
as claimed. -/
theorem claim_C1_range_included_bug :
    rangeCollect 5 (rangeForIter [([1],10,1), ([2],20,2), ([3],30,3)]
        (RBound.Included [2]))
      = [([1],(10:Nat),1), ([3],30,3)] ∧
      rangeCollect 5 (rangeForIter [([1],10,1), ([2],20,2), ([3],30,3)]
          (RBound.Excluded [2]))
        = [([1],(10:Nat),1)] ∧
      rangeCollect 5 (rangeForIter [([1],10,1), ([2],20,2), ([3],30,3)]
          (RBound.Included [2]))
        ≠ [([1],(10:Nat),1), ([2],20,2)] := by
  exact ⟨rfl, rfl, by decide⟩

/-- C2: evaluation of `FlatNode::add_child` at the failing input. On a width-4
node with sorted occupied keys `[1, 5, 9]`, adding byte 3 produces occupied
keys `[1, 5, 3, 9]`: `find_pos` searches the reversed index range for the
first key exceeding 3 and therefore lands on the slot of 9 (index 2) instead
of the slot of 5 (index 1), so the claimed sorted-ascending invariant is
broken. -/
theorem claim_C2_add_child_unsorted :
    (FlatNode.add_child (fun x => x)
        ⟨[], 0, [1, 5, 9, 0], [some 1, some 5, some 9, none], 3⟩ 3 (3 : Nat)).map
        (fun m => (m.keys.take m.num_children, m.num_children))
      = some ([1, 5, 3, 9], 4) ∧
      sortedAsc ([1, 5, 9, 0].take 3) = true ∧
      sortedAsc [1, 5, 3, 9] = false := by
  exact ⟨by decide, by decide, by decide⟩

/-- `revFind` only returns indices below its bound. -/
theorem revFind_lt (p : Nat → Bool) : ∀ n i, revFind p n = some i → i < n := by
  intro n
  induction n with
  | zero => intro i h; simp [revFind] at h
  | succ m ih =>
    intro i h
    rw [revFind] at h
    by_cases hp : p m
    · rw [if_pos hp] at h; cases h; omega
    · rw [if_neg hp] at h
      have := ih i h
      omega

/-- `find_pos` always succeeds and the position never exceeds
`num_children`. -/
theorem find_pos_le (n : FlatNode α) (key : Nat) :
    ∃ idx, n.find_pos key = some idx ∧ idx ≤ n.num_children := by
  rw [FlatNode.find_pos]
  rcases hr : revFind (fun i => decide (key < n.keys.getD i 0)) n.num_children with _ | i
  · exact ⟨n.num_children, rfl, Nat.le_refl _⟩
  · exact ⟨i, rfl, Nat.le_of_lt (revFind_lt _ _ _ hr)⟩

/-- `clone` preserves the `keys` length when the occupancy is within the
width. -/
theorem clone_keys_length (n : FlatNode α) (h : n.num_children ≤ n.keys.length) :
    (n.clone).keys.length = n.keys.length := by
  simp [FlatNode.clone]
  omega

/-- `clone` preserves the `children` length when the occupancy is within the
width. -/
theorem clone_children_length (n : FlatNode α)
    (h : n.num_children ≤ n.children.length) :
    (n.clone).children.length = n.children.length := by
  simp [FlatNode.clone]
  omega

/-- The shifting loop fails (a Rust index panic) as soon as its topmost write
would land at or beyond the end of the keys array. -/
theorem shiftTail_none_of_overflow (idx c : Nat) (ks : List Nat)
    (cs : List (Option α)) (hc : 0 < c) (hw : ks.length ≤ idx + c) :
    shiftTail idx c ks cs = none := by
  cases c with
  | zero => omega
  | succ c2 =>
    rw [shiftTail]
    rcases hk : ks[idx + c2]? with _ | k
    · simp [hk]
    · rcases hch : cs[idx + c2]? with _ | ch
      · simp [hk, hch]
      · have hset : setChecked ks (idx + c2 + 1) k = none := by
          rw [setChecked, if_neg]
          omega
        simp [hk, hch, hset]

/-- C8: on a full `FlatNode` (`num_children` equal to the shared array width)
`add_child` hits an out-of-bounds array write for every byte and therefore
panics; it never returns a node. (The panic site differs from the spec's
`expect("node is full")`: `find_pos` always returns `Some`, so the overflow
instead dies on the slice write in `insert_child` — but it is a panic for
every byte, never a silent drop.) -/
theorem claim_C8_add_child_full_panics (tsOf : α → Nat) (n : FlatNode α)
    (b : Nat) (c : α) (hlen : n.children.length = n.keys.length)
    (hfull : n.num_children = n.keys.length) :
    FlatNode.add_child tsOf n b c = none := by
  obtain ⟨idx, hpos, hle⟩ := find_pos_le n b
  rw [FlatNode.add_child, hpos]
  simp only
  rw [FlatNode.insert_child]
  have hck : (n.clone).keys.length = n.keys.length :=
    clone_keys_length n (by omega)
  have hnum : (n.clone).num_children = n.num_children := rfl
  have hkeq : (FlatNode.update_if_newer n.clone (tsOf c)).keys = (n.clone).keys := by
    rw [FlatNode.update_if_newer]
    split <;> rfl
  have hnum2 : (FlatNode.update_if_newer n.clone (tsOf c)).num_children
      = (n.clone).num_children := by
    rw [FlatNode.update_if_newer]
    split <;> rfl
  rcases Nat.lt_or_ge idx n.num_children with hidx | hidx
  · have hshift : shiftTail idx
        ((FlatNode.update_if_newer n.clone (tsOf c)).num_children - idx)
        (FlatNode.update_if_newer n.clone (tsOf c)).keys
        (FlatNode.update_if_newer n.clone (tsOf c)).children = none := by
      apply shiftTail_none_of_overflow
      · rw [hnum2, hnum]; omega
      · rw [hkeq, hck, hnum2, hnum]
        omega
    simp [hshift]
  · have hidx2 : idx = n.num_children := by omega
    subst hidx2
    have hshift : shiftTail n.num_children
        ((FlatNode.update_if_newer n.clone (tsOf c)).num_children - n.num_children)
        (FlatNode.update_if_newer n.clone (tsOf c)).keys
        (FlatNode.update_if_newer n.clone (tsOf c)).children
        = some ((FlatNode.update_if_newer n.clone (tsOf c)).keys,
            (FlatNode.update_if_newer n.clone (tsOf c)).children) := by
      rw [hnum2, hnum, Nat.sub_self, shiftTail]
    have hset : setChecked (FlatNode.update_if_newer n.clone (tsOf c)).keys
        n.num_children b = none := by
      rw [setChecked, if_neg]
      rw [hkeq, hck]
      omega
    simp [hshift, hset]

/-- C8 witness: a concrete full width-4 node rejects every addition. -/
theorem claim_C8_witness :
    ((⟨[], 0, [1, 5, 9, 12], [some 1, some 5, some 9, some 12], 4⟩ :
        FlatNode Nat)).children.length
      = ((⟨[], 0, [1, 5, 9, 12], [some 1, some 5, some 9, some 12], 4⟩ :
          FlatNode Nat)).keys.length ∧
      ((⟨[], 0, [1, 5, 9, 12], [some 1, some 5, some 9, some 12], 4⟩ :
          FlatNode Nat)).num_children
        = ((⟨[], 0, [1, 5, 9, 12], [some 1, some 5, some 9, some 12], 4⟩ :
            FlatNode Nat)).keys.length ∧
      FlatNode.add_child (fun x => x)
        (⟨[], 0, [1, 5, 9, 12], [some 1, some 5, some 9, some 12], 4⟩ : FlatNode Nat)
        7 (7 : Nat) = none := by
  exact ⟨rfl, rfl, claim_C8_add_child_full_panics (fun x => x) _ 7 7 rfl rfl⟩

/-- Characterization of the right-shifting loop on success: entries at or
below `idx` are unchanged, entries in `(idx, idx+c]` come from one slot to the
left, entries above `idx+c` are unchanged. -/
theorem shiftTail_spec :
    ∀ (c idx : Nat) (ks : List Nat) (cs : List (Option α)),
      idx + c < ks.length → idx + c < cs.length →
      ∃ ks2 cs2, shiftTail idx c ks cs = some (ks2, cs2) ∧
        ks2.length = ks.length ∧ cs2.length = cs.length ∧
        (∀ j, j ≤ idx → ks2[j]? = ks[j]? ∧ cs2[j]? = cs[j]?) ∧
        (∀ j, idx < j → j ≤ idx + c → ks2[j]? = ks[j - 1]? ∧ cs2[j]? = cs[j - 1]?) ∧
        (∀ j, idx + c < j → ks2[j]? = ks[j]? ∧ cs2[j]? = cs[j]?) := by
  intro c
  induction c with
  | zero =>
    intro idx ks cs hk hc
    refine ⟨ks, cs, by rw [shiftTail], rfl, rfl, fun j _ => ⟨rfl, rfl⟩, ?_, fun j _ => ⟨rfl, rfl⟩⟩
    intro j h1 h2
    omega
  | succ c ih =>
    intro idx ks cs hk hc
    have hi : idx + c < ks.length := by omega
    have hi2 : idx + c < cs.length := by omega
    obtain ⟨k, hkread⟩ : ∃ k, ks[idx + c]? = some k := by
      rcases h : ks[idx + c]? with _ | k
      · rw [List.getElem?_eq_none_iff] at h; omega
      · exact ⟨k, rfl⟩
    obtain ⟨ch, hcread⟩ : ∃ ch, cs[idx + c]? = some ch := by
      rcases h : cs[idx + c]? with _ | ch
      · rw [List.getElem?_eq_none_iff] at h; omega
      · exact ⟨ch, rfl⟩
    have hset1 : setChecked ks (idx + c + 1) k = some (ks.set (idx + c + 1) k) := by
      rw [setChecked, if_pos (by omega)]
    have hset2 : setChecked cs (idx + c + 1) ch = some (cs.set (idx + c + 1) ch) := by
      rw [setChecked, if_pos (by omega)]
    have hlen1 : (ks.set (idx + c + 1) k).length = ks.length := List.length_set _ _ _
    have hlen2 : (cs.set (idx + c + 1) ch).length = cs.length := List.length_set _ _ _
    obtain ⟨ks2, cs2, hrec, hl1, hl2, hlow, hmid, hhigh⟩ :=
      ih idx (ks.set (idx + c + 1) k) (cs.set (idx + c + 1) ch)
        (by omega) (by omega)
    refine ⟨ks2, cs2, ?_, by omega, by omega, ?_, ?_, ?_⟩
    · rw [shiftTail]
      simp [hkread, hcread, hset1, hset2, hrec]
    · intro j hj
      obtain ⟨e1, e2⟩ := hlow j hj
      rw [e1, e2, List.getElem?_set_ne (by omega), List.getElem?_set_ne (by omega)]
      exact ⟨rfl, rfl⟩
    · intro j hj1 hj2
      rcases Nat.lt_or_ge j (idx + c + 1) with hj3 | hj3
      · obtain ⟨e1, e2⟩ := hmid j hj1 (by omega)
        rw [e1, e2, List.getElem?_set_ne (by omega), List.getElem?_set_ne (by omega)]
        exact ⟨rfl, rfl⟩
      · have hj4 : j = idx + c + 1 := by omega
        subst hj4
        obtain ⟨e1, e2⟩ := hhigh (idx + c + 1) (by omega)
        rw [e1, e2, List.getElem?_set_self (by omega), List.getElem?_set_self (by omega)]
        have : idx + c + 1 - 1 = idx + c := by omega
        rw [this, hkread, hcread]
        exact ⟨rfl, rfl⟩
    · intro j hj
      obtain ⟨e1, e2⟩ := hhigh j (by omega)
      rw [e1, e2, List.getElem?_set_ne (by omega), List.getElem?_set_ne (by omega)]
      exact ⟨rfl, rfl⟩

/-- Characterization of `FlatNode::insert_child` on a node with spare
capacity: the new key/child land at `idx`, lower slots are unchanged, the
occupied tail is shifted one to the right, slots beyond the old occupancy are
unchanged, and the count grows by one. -/
theorem insert_child_spec (n : FlatNode α) (idx key : Nat) (node : α)
    (hidx : idx ≤ n.num_children) (hcap : n.num_children < n.keys.length)
    (hlen : n.children.length = n.keys.length) :
    ∃ m, n.insert_child idx key node = some m ∧
      m.pfx = n.pfx ∧ m.ts = n.ts ∧
      m.keys.length = n.keys.length ∧ m.children.length = n.children.length ∧
      m.num_children = n.num_children + 1 ∧
      (∀ j, j < idx → m.keys[j]? = n.keys[j]? ∧ m.children[j]? = n.children[j]?) ∧
      (m.keys[idx]? = some key ∧ m.children[idx]? = some (some node)) ∧
      (∀ j, idx < j → j ≤ n.num_children →
        m.keys[j]? = n.keys[j - 1]? ∧ m.children[j]? = n.children[j - 1]?) ∧
      (∀ j, n.num_children < j → m.keys[j]? = n.keys[j]? ∧ m.children[j]? = n.children[j]?) := by
  obtain ⟨ks2, cs2, hshift, hl1, hl2, hlow, hmid, hhigh⟩ :=
    shiftTail_spec (n.num_children - idx) idx n.keys n.children
      (by omega) (by omega)
  have hidxlt1 : idx < ks2.length := by omega
  have hidxlt2 : idx < cs2.length := by omega
  have hset1 : setChecked ks2 idx key = some (ks2.set idx key) := by
    rw [setChecked, if_pos hidxlt1]
  have hset2 : setChecked cs2 idx (some node) = some (cs2.set idx (some node)) := by
    rw [setChecked, if_pos hidxlt2]
  refine ⟨{ n with
      keys := ks2.set idx key
      children := cs2.set idx (some node)
      num_children := n.num_children + 1 }, ?_, rfl, rfl, ?_, ?_, rfl, ?_, ?_, ?_, ?_⟩
  · rw [FlatNode.insert_child]
    simp [hshift, hset1, hset2]
  · simp only [List.length_set]; omega
  · simp only [List.length_set]; omega
  · intro j hj
    obtain ⟨e1, e2⟩ := hlow j (by omega)
    simp only [List.getElem?_set_ne (by omega : idx ≠ j)]
    exact ⟨e1, e2⟩
  · constructor
    · rw [List.getElem?_set_self hidxlt1]
    · rw [List.getElem?_set_self hidxlt2]
  · intro j hj1 hj2
    obtain ⟨e1, e2⟩ := hmid j hj1 (by omega)
    simp only [List.getElem?_set_ne (by omega : idx ≠ j)]
    exact ⟨e1, e2⟩
  · intro j hj
    obtain ⟨e1, e2⟩ := hhigh j (by omega)
    simp only [List.getElem?_set_ne (by omega : idx ≠ j)]
    exact ⟨e1, e2⟩

/-- `clone` keeps the occupied prefix of both parallel arrays (for occupancy
within the widths). -/
theorem clone_getElem_lt (n : FlatNode α) (j : Nat) (hj : j < n.num_children)
    (hk : n.num_children ≤ n.keys.length) (hc : n.num_children ≤ n.children.length) :
    (n.clone).keys[j]? = n.keys[j]? ∧ (n.clone).children[j]? = n.children[j]? := by
  constructor
  · show (n.keys.take n.num_children ++
      List.replicate (n.keys.length - n.num_children) 0)[j]? = n.keys[j]?
    rw [List.getElem?_append, if_pos (by simp [List.length_take]; omega)]
    rw [List.getElem?_take, if_pos hj]
  · show (n.children.take n.num_children ++
      List.replicate (n.children.length - n.num_children) none)[j]? = n.children[j]?
    rw [List.getElem?_append, if_pos (by simp [List.length_take]; omega)]
    rw [List.getElem?_take, if_pos hj]

/-- Characterization of `FlatNode::add_child` on a node with spare capacity:
the operation succeeds, the new key/child sit at some position at most the old
occupancy, lower occupied slots are unchanged and the occupied tail shifts one
slot to the right. -/
theorem add_child_spec (tsOf : α → Nat) (n : FlatNode α) (b : Nat) (c : α)
    (hlen : n.children.length = n.keys.length)
    (hcap : n.num_children < n.keys.length) :
    ∃ m idx, FlatNode.add_child tsOf n b c = some m ∧ idx ≤ n.num_children ∧
      m.keys.length = n.keys.length ∧ m.children.length = n.keys.length ∧
      m.num_children = n.num_children + 1 ∧
      (∀ j, j < idx → m.keys[j]? = n.keys[j]? ∧ m.children[j]? = n.children[j]?) ∧
      (m.keys[idx]? = some b ∧ m.children[idx]? = some (some c)) ∧
      (∀ j, idx < j → j ≤ n.num_children →
        m.keys[j]? = n.keys[j - 1]? ∧ m.children[j]? = n.children[j - 1]?) := by
  obtain ⟨idx, hpos, hle⟩ := find_pos_le n b
  have hck : (n.clone).keys.length = n.keys.length := clone_keys_length n (by omega)
  have hcc : (n.clone).children.length = n.children.length :=
    clone_children_length n (by omega)
  have hkeq : (FlatNode.update_if_newer n.clone (tsOf c)).keys = (n.clone).keys := by
    rw [FlatNode.update_if_newer]; split <;> rfl
  have hceq : (FlatNode.update_if_newer n.clone (tsOf c)).children
      = (n.clone).children := by
    rw [FlatNode.update_if_newer]; split <;> rfl
  have hnum2 : (FlatNode.update_if_newer n.clone (tsOf c)).num_children
      = n.num_children := by
    rw [FlatNode.update_if_newer]; split <;> rfl
  obtain ⟨m, hins, _, _, hml1, hml2, hmnum, hlow, hat, hmid, _⟩ :=
    insert_child_spec (FlatNode.update_if_newer n.clone (tsOf c)) idx b c
      (by rw [hnum2]; exact hle)
      (by rw [hnum2, hkeq, hck]; exact hcap)
      (by rw [hkeq, hceq, hck, hcc, hlen])
  refine ⟨m, idx, ?_, hle, ?_, ?_, ?_, ?_, hat, ?_⟩
  · rw [FlatNode.add_child, hpos]
    exact hins
  · rw [hml1, hkeq, hck]
  · rw [hml2, hceq, hcc, hlen]
  · rw [hmnum, hnum2]
  · intro j hj
    obtain ⟨e1, e2⟩ := hlow j hj
    rw [e1, e2, hkeq, hceq]
    exact clone_getElem_lt n j (by omega) (by omega) (by omega)
  · intro j hj1 hj2
    obtain ⟨e1, e2⟩ := hmid j hj1 (by rw [hnum2]; exact hj2)
    rw [e1, e2, hkeq, hceq]
    exact clone_getElem_lt n (j - 1) (by omega) (by omega) (by omega)

/-- `findIdx?` characterized through optional indexing: it finds `i` exactly
when the entry at `i` satisfies the predicate and every earlier entry
refutes it. -/
theorem findIdx?_eq_some_iff_getElemOpt (xs : List γ) (p : γ → Bool) (i : Nat) :
    xs.findIdx? p = some i ↔
      (∃ x, xs[i]? = some x ∧ p x = true) ∧
        ∀ j, j < i → ∀ x, xs[j]? = some x → p x = false := by
  rw [List.findIdx?_eq_some_iff_getElem]
  constructor
  · rintro ⟨h, hp, hmin⟩
    refine ⟨⟨xs[i], List.getElem?_eq_getElem h, hp⟩, ?_⟩
    intro j hj x hx
    have hjl : j < xs.length := by omega
    have hxx : xs.get ⟨j, hjl⟩ = x := (List.getElem?_eq_some.mp hx).2
    have hm : p (xs.get ⟨j, hjl⟩) = false := by simpa using hmin j hj
    rw [hxx] at hm
    exact hm
  · rintro ⟨⟨x, hx, hp⟩, hmin⟩
    have hi : i < xs.length := (List.getElem?_eq_some.mp hx).1
    refine ⟨hi, ?_, ?_⟩
    · rw [(List.getElem?_eq_some.mp hx).2]
      exact hp
    · intro j hj
      have hjl : j < xs.length := by omega
      have hx2 : xs[j]? = some (xs.get ⟨j, hjl⟩) := List.getElem?_eq_getElem hjl
      have := hmin j hj _ hx2
      simpa using this

/-- `findIdx?` refutes through optional indexing. -/
theorem findIdx?_eq_none_iff_getElemOpt (xs : List γ) (p : γ → Bool) :
    xs.findIdx? p = none ↔ ∀ (j : Nat) (x : γ), xs[j]? = some x → p x = false := by
  rw [List.findIdx?_eq_none_iff]
  constructor
  · intro h j x hx
    exact h x (List.getElem?_mem hx)
  · intro h x hxmem
    obtain ⟨j, hjl, hjx⟩ := List.getElem_of_mem hxmem
    exact h j x (by rw [List.getElem?_eq_getElem hjl, hjx])

/-- C9: on a width-`W` `FlatNode` with fewer than `W` children whose occupied
keys do not contain `b` — sorted or not — `add_child(b, c)` succeeds,
`find_child(b)` on the result returns exactly `c`, and `find_child` at every
other byte returns what it returned on the original node, because
`find_child` linearly scans the occupied prefix. -/
theorem claim_C9_add_find_child (tsOf : α → Nat) (n : FlatNode α) (b : Nat) (c : α)
    (hlen : n.children.length = n.keys.length)
    (hcap : n.num_children < n.keys.length)
    (hb : b ∉ n.keys.take n.num_children) :
    ∃ m, FlatNode.add_child tsOf n b c = some m ∧
      m.find_child b = some (some c) ∧
      ∀ b2, b2 ≠ b → m.find_child b2 = n.find_child b2 := by
  obtain ⟨m, idx, hadd, hle, hml1, hml2, hmnum, hlow, ⟨hatk, hatc⟩, hmid⟩ :=
    add_child_spec tsOf n b c hlen hcap
  have hmin : min n.keys.length n.num_children = n.num_children :=
    Nat.min_eq_right (by omega)
  have hminm : min m.keys.length m.num_children = n.num_children + 1 := by
    rw [hml1, hmnum]
    exact Nat.min_eq_right (by omega)
  have hnb : ∀ j, j < n.num_children → n.keys[j]? ≠ some b := by
    intro j hj hcon
    have hx2 : (n.keys.take n.num_children)[j]? = some b := by
      rw [List.getElem?_take, if_pos hj]
      exact hcon
    exact hb (List.getElem?_mem hx2)
  have hmkeys : ∀ j, j ≤ n.num_children →
      m.keys[j]? = if j < idx then n.keys[j]?
        else if j = idx then some b else n.keys[j - 1]? := by
    intro j hj
    rcases Nat.lt_trichotomy j idx with h | h | h
    · rw [if_pos h]; exact (hlow j h).1
    · subst h; rw [if_neg (by omega), if_pos rfl]; exact hatk
    · rw [if_neg (by omega), if_neg (by omega)]; exact (hmid j h hj).1
  have hmcs : ∀ j, j ≤ n.num_children →
      m.children[j]? = if j < idx then n.children[j]?
        else if j = idx then some (some c) else n.children[j - 1]? := by
    intro j hj
    rcases Nat.lt_trichotomy j idx with h | h | h
    · rw [if_pos h]; exact (hlow j h).2
    · subst h; rw [if_neg (by omega), if_pos rfl]; exact hatc
    · rw [if_neg (by omega), if_neg (by omega)]; exact (hmid j h hj).2
  have hnkey : ∀ j, j < n.num_children → ∃ x, n.keys[j]? = some x := by
    intro j hj
    rcases hx : n.keys[j]? with _ | x
    · rw [List.getElem?_eq_none_iff] at hx; omega
    · exact ⟨x, rfl⟩
  have hmtake : ∀ j, j ≤ n.num_children →
      (m.keys.take (n.num_children + 1))[j]? = m.keys[j]? := by
    intro j hj
    rw [List.getElem?_take, if_pos (by omega)]
  refine ⟨m, hadd, ?_, ?_⟩
  · -- find_child b on the result returns the new child
    have hidxm : m.index b = some idx := by
      rw [FlatNode.index, hminm, findIdx?_eq_some_iff_getElemOpt]
      constructor
      · refine ⟨b, ?_, beq_iff_eq.mpr rfl⟩
        rw [hmtake idx hle, hmkeys idx hle, if_neg (by omega), if_pos rfl]
      · intro j hj x hx
        rw [hmtake j (by omega), hmkeys j (by omega), if_pos hj] at hx
        have hxne : x ≠ b := by
          intro hcon
          exact hnb j (by omega) (hcon ▸ hx)
        exact beq_false_of_ne (Ne.symm hxne)
    rw [FlatNode.find_child, hidxm]
    show (match m.children[idx]? with
      | none => none
      | some c2 => some c2) = some (some c)
    rw [hatc]
  · -- every other byte looks up the same child as before
    intro b2 hb2
    rcases hni : n.index b2 with _ | j
    · -- absent before: absent after
      rw [FlatNode.index, hmin, findIdx?_eq_none_iff_getElemOpt] at hni
      have hmi : m.index b2 = none := by
        rw [FlatNode.index, hminm, findIdx?_eq_none_iff_getElemOpt]
        intro j x hx
        rcases Nat.lt_or_ge j (n.num_children + 1) with hjr | hjr
        · rw [hmtake j (by omega), hmkeys j (by omega)] at hx
          split at hx
          · exact hni j x (by rw [List.getElem?_take, if_pos (by omega)]; exact hx)
          · split at hx
            · cases hx
              exact beq_false_of_ne hb2
            · rename_i h1 h2
              exact hni (j - 1) x
                (by rw [List.getElem?_take, if_pos (by omega)]; exact hx)
        · rw [List.getElem?_eq_none (by simp [List.length_take]; omega)] at hx
          cases hx
      rw [FlatNode.find_child, hmi, FlatNode.find_child]
      rw [show n.index b2 = none from by
        rw [FlatNode.index, hmin, findIdx?_eq_none_iff_getElemOpt]
        exact hni]
    · -- present before at j: present after at j or j + 1 with the same child
      rw [FlatNode.index, hmin, findIdx?_eq_some_iff_getElemOpt] at hni
      obtain ⟨⟨x, hxat, hpx⟩, hminv⟩ := hni
      have hjlt : j < n.num_children := by
        by_contra hcon
        rw [List.getElem?_eq_none (by simp [List.length_take]; omega)] at hxat
        cases hxat
      have hxval : x = b2 := (beq_iff_eq.mp hpx).symm
      rw [hxval] at hxat
      rw [List.getElem?_take, if_pos hjlt] at hxat
      have hminv2 : ∀ j2, j2 < j → n.keys[j2]? ≠ some b2 := by
        intro j2 hj2 hcon
        have := hminv j2 hj2 b2
          (by rw [List.getElem?_take, if_pos (by omega)]; exact hcon)
        simp at this
      have hnieq : n.index b2 = some j := by
        rw [FlatNode.index, hmin, findIdx?_eq_some_iff_getElemOpt]
        refine ⟨⟨b2, ?_, beq_iff_eq.mpr rfl⟩, ?_⟩
        · rw [List.getElem?_take, if_pos hjlt]; exact hxat
        · intro j2 hj2 x2 hx2
          rw [List.getElem?_take, if_pos (by omega)] at hx2
          have : x2 ≠ b2 := fun hcon => hminv2 j2 hj2 (hcon ▸ hx2)
          exact beq_false_of_ne (Ne.symm this)
      by_cases hcase : j < idx
      · have hmi : m.index b2 = some j := by
          rw [FlatNode.index, hminm, findIdx?_eq_some_iff_getElemOpt]
          refine ⟨⟨b2, ?_, beq_iff_eq.mpr rfl⟩, ?_⟩
          · rw [hmtake j (by omega), hmkeys j (by omega), if_pos hcase]
            exact hxat
          · intro j2 hj2 x2 hx2
            rw [hmtake j2 (by omega), hmkeys j2 (by omega), if_pos (by omega)] at hx2
            have : x2 ≠ b2 := fun hcon => hminv2 j2 hj2 (hcon ▸ hx2)
            exact beq_false_of_ne (Ne.symm this)
        rw [FlatNode.find_child, hmi, FlatNode.find_child, hnieq]
        show (match m.children[j]? with
          | none => none
          | some c2 => some c2)
          = (match n.children[j]? with
            | none => none
            | some c2 => some c2)
        rw [(hmcs j (by omega)).trans (by rw [if_pos hcase])]
      · have hmi : m.index b2 = some (j + 1) := by
          rw [FlatNode.index, hminm, findIdx?_eq_some_iff_getElemOpt]
          refine ⟨⟨b2, ?_, beq_iff_eq.mpr rfl⟩, ?_⟩
          · rw [hmtake (j + 1) (by omega), hmkeys (j + 1) (by omega),
              if_neg (by omega), if_neg (by omega)]
            simpa using hxat
          · intro j2 hj2 x2 hx2
            rw [hmtake j2 (by omega), hmkeys j2 (by omega)] at hx2
            split at hx2
            · have : x2 ≠ b2 := fun hcon =>
                hminv2 j2 (by omega) (hcon ▸ hx2)
              exact beq_false_of_ne (Ne.symm this)
            · split at hx2
              · cases hx2
                exact beq_false_of_ne hb2
              · rename_i h1 h2
                have : x2 ≠ b2 := fun hcon =>
                  hminv2 (j2 - 1) (by omega) (hcon ▸ hx2)
                exact beq_false_of_ne (Ne.symm this)
        have hcj : m.children[j + 1]? = n.children[j]? := by
          rw [hmcs (j + 1) (by omega), if_neg (by omega), if_neg (by omega),
            Nat.add_sub_cancel]
        rw [FlatNode.find_child, hmi, FlatNode.find_child, hnieq]
        show (match m.children[j + 1]? with
          | none => none
          | some c2 => some c2)
          = (match n.children[j]? with
            | none => none
            | some c2 => some c2)
        rw [hcj]


/-- `FlatNode::max_child_ts` computes the maximum (with default 0) of the
timestamps of the present children. -/
theorem flat_max_child_ts_eq (tsOf : α → Nat) (l : List (Option α)) :
    ∀ a, l.foldl
        (fun acc x =>
          match x with
          | some child => max acc (tsOf child)
          | none => acc) a
      = max a ((slotsTs tsOf l).foldr max 0) := by
  induction l with
  | nil => intro a; simp [slotsTs]
  | cons x rest ih =>
    intro a
    cases x with
    | none =>
      have hs : slotsTs tsOf (none :: rest) = slotsTs tsOf rest := by
        simp [slotsTs]
      rw [List.foldl_cons, hs]
      exact ih a
    | some child =>
      have hs : slotsTs tsOf (some child :: rest)
          = tsOf child :: slotsTs tsOf rest := by
        simp [slotsTs]
      rw [List.foldl_cons, hs, List.foldr_cons]
      show List.foldl _ (max a (tsOf child)) rest = _
      rw [ih (max a (tsOf child))]
      omega

/-- The `VecArray`-based `max_child_ts` of Node48/Node256 computes the same
maximum over the present slots. -/
theorem va_max_child_ts_eq (tsOf : α → Nat) (l : List (Option α)) :
    ∀ s a, (vaIterGo s l).foldl (fun acc x => max acc (tsOf x.2)) a
      = max a ((slotsTs tsOf l).foldr max 0) := by
  induction l with
  | nil => intro s a; simp [vaIterGo, slotsTs]
  | cons x rest ih =>
    intro s a
    cases x with
    | none =>
      have hs : slotsTs tsOf (none :: rest) = slotsTs tsOf rest := by
        simp [slotsTs]
      rw [show vaIterGo s (none :: rest) = vaIterGo (s + 1) rest from rfl, hs]
      exact ih (s + 1) a
    | some child =>
      have hs : slotsTs tsOf (some child :: rest)
          = tsOf child :: slotsTs tsOf rest := by
        simp [slotsTs]
      rw [show vaIterGo s (some child :: rest)
          = (s, child) :: vaIterGo (s + 1) rest from rfl]
      rw [List.foldl_cons, hs, List.foldr_cons]
      show List.foldl _ (max a (tsOf child)) (vaIterGo (s + 1) rest) = _
      rw [ih (s + 1) (max a (tsOf child))]
      omega

/-- The left-shifting loop of `delete_child` succeeds whenever its reads from
the source arrays and its writes into the clone stay in bounds, preserving
lengths. -/
theorem delShiftGo_some (sk : List Nat) (sc : List (Option α)) :
    ∀ (c i : Nat) (ks : List Nat) (cs : List (Option α)),
      i + c < sk.length → i + c < sc.length → i + c ≤ ks.length → i + c ≤ cs.length →
      ∃ ks2 cs2, delShiftGo sk sc i c ks cs = some (ks2, cs2) ∧
        ks2.length = ks.length ∧ cs2.length = cs.length := by
  intro c
  induction c with
  | zero =>
    intro i ks cs _ _ _ _
    exact ⟨ks, cs, by rw [delShiftGo], rfl, rfl⟩
  | succ c ih =>
    intro i ks cs h1 h2 h3 h4
    obtain ⟨k, hk⟩ : ∃ k, sk[i + 1]? = some k := by
      rcases h : sk[i + 1]? with _ | k
      · rw [List.getElem?_eq_none_iff] at h; omega
      · exact ⟨k, rfl⟩
    obtain ⟨ch, hch⟩ : ∃ ch, sc[i + 1]? = some ch := by
      rcases h : sc[i + 1]? with _ | ch
      · rw [List.getElem?_eq_none_iff] at h; omega
      · exact ⟨ch, rfl⟩
    have hs1 : setChecked ks i k = some (ks.set i k) := by
      rw [setChecked, if_pos (by omega)]
    have hs2 : setChecked cs i ch = some (cs.set i ch) := by
      rw [setChecked, if_pos (by omega)]
    obtain ⟨ks2, cs2, hrec, hl1, hl2⟩ := ih (i + 1) (ks.set i k) (cs.set i ch)
      (by omega) (by omega) (by simp; omega) (by simp; omega)
    refine ⟨ks2, cs2, ?_, by simp at hl1 ⊢; omega, by simp at hl2 ⊢; omega⟩
    rw [delShiftGo]
    simp [hk, hch, hs1, hs2, hrec]

/-- `FlatNode::delete_child` succeeds on a present byte and recomputes `ts`
from the remaining children. -/
theorem flat_delete_child_spec (tsOf : α → Nat) (n : FlatNode α) (b : Nat)
    (hlen : n.children.length = n.keys.length)
    (hnc : n.num_children ≤ n.keys.length)
    (hmem : b ∈ n.keys.take n.num_children) :
    ∃ m, FlatNode.delete_child tsOf n b = some m ∧
      m.ts = (slotsTs tsOf m.children).foldr max 0 ∧
      m.num_children = n.num_children - 1 := by
  obtain ⟨idx, hidx⟩ : ∃ idx,
      (n.keys.take n.num_children).findIdx? (fun k => k == b) = some idx := by
    rcases h : (n.keys.take n.num_children).findIdx? (fun k => k == b) with _ | idx
    · rw [List.findIdx?_eq_none_iff] at h
      have := h b hmem
      simp at this
    · exact ⟨idx, rfl⟩
  have hidxlt : idx < n.num_children := by
    rw [List.findIdx?_eq_some_iff_getElem] at hidx
    obtain ⟨h, _, _⟩ := hidx
    simp only [List.length_take] at h
    omega
  have hw1 : 1 ≤ n.num_children := by omega
  have hcc : (n.clone).children.length = n.children.length :=
    clone_children_length n (by omega)
  have hck : (n.clone).keys.length = n.keys.length :=
    clone_keys_length n (by omega)
  have hset0 : setChecked (n.clone).children idx none
      = some ((n.clone).children.set idx none) := by
    rw [setChecked, if_pos (by omega)]
  obtain ⟨ks2, cs2, hdel, hl1, hl2⟩ :=
    delShiftGo_some n.keys n.children (n.keys.length - 1 - idx) idx
      (n.clone).keys ((n.clone).children.set idx none)
      (by omega) (by omega) (by omega) (by simp [hcc]; omega)
  have hsetk : setChecked ks2 (n.keys.length - 1) 0
      = some (ks2.set (n.keys.length - 1) 0) := by
    rw [setChecked, if_pos (by rw [hl1, hck]; omega)]
  have hsetc : setChecked cs2 (n.keys.length - 1) none
      = some (cs2.set (n.keys.length - 1) none) := by
    rw [setChecked, if_pos (by rw [hl2]; simp [hcc]; omega)]
  refine ⟨{ { n.clone with
      keys := ks2.set (n.keys.length - 1) 0
      children := cs2.set (n.keys.length - 1) none
      num_children := n.num_children - 1 } with
    ts := FlatNode.max_child_ts tsOf { n.clone with
      keys := ks2.set (n.keys.length - 1) 0
      children := cs2.set (n.keys.length - 1) none
      num_children := n.num_children - 1 } }, ?_, ?_, rfl⟩
  · rw [FlatNode.delete_child]
    simp [hidx, hset0, hdel, hsetk, hsetc]
  · show FlatNode.max_child_ts tsOf { n.clone with
        keys := ks2.set (n.keys.length - 1) 0
        children := cs2.set (n.keys.length - 1) none
        num_children := n.num_children - 1 }
      = (slotsTs tsOf (cs2.set (n.keys.length - 1) none)).foldr max 0
    calc FlatNode.max_child_ts tsOf { n.clone with
          keys := ks2.set (n.keys.length - 1) 0
          children := cs2.set (n.keys.length - 1) none
          num_children := n.num_children - 1 }
        = max 0 ((slotsTs tsOf (cs2.set (n.keys.length - 1) none)).foldr max 0) :=
          flat_max_child_ts_eq tsOf (cs2.set (n.keys.length - 1) none) 0
      _ = (slotsTs tsOf (cs2.set (n.keys.length - 1) none)).foldr max 0 := by omega

/-- Assigning `max_child_ts` as the `ts` of a Node48 establishes the
maximum-of-remaining-children property. -/
theorem ts_after_max48 (tsOf : α → Nat) (m : Node48 α) :
    ({ m with ts := Node48.max_child_ts tsOf m } : Node48 α).ts
      = (slotsTs tsOf
          ({ m with ts := Node48.max_child_ts tsOf m } : Node48 α).children).foldr
          max 0 := by
  show Node48.max_child_ts tsOf m = (slotsTs tsOf m.children).foldr max 0
  calc Node48.max_child_ts tsOf m
      = max 0 ((slotsTs tsOf m.children).foldr max 0) :=
        va_max_child_ts_eq tsOf m.children 0 0
    _ = (slotsTs tsOf m.children).foldr max 0 := by omega

/-- Assigning `max_child_ts` as the `ts` of a Node256 establishes the
maximum-of-remaining-children property. -/
theorem ts_after_max256 (tsOf : α → Nat) (m : Node256 α) :
    ({ m with ts := Node256.max_child_ts tsOf m } : Node256 α).ts
      = (slotsTs tsOf
          ({ m with ts := Node256.max_child_ts tsOf m } : Node256 α).children).foldr
          max 0 := by
  show Node256.max_child_ts tsOf m = (slotsTs tsOf m.children).foldr max 0
  calc Node256.max_child_ts tsOf m
      = max 0 ((slotsTs tsOf m.children).foldr max 0) :=
        va_max_child_ts_eq tsOf m.children 0 0
    _ = (slotsTs tsOf m.children).foldr max 0 := by omega

/-- `Node48::delete_child` on a present byte evaluates to the erased node with
recomputed `ts`. -/
theorem node48_delete_eq (tsOf : α → Nat) (n : Node48 α) (b pos : Nat)
    (hget : vaGet n.child_ptr_indexes b = some pos) :
    Node48.delete_child tsOf n b
      = some { { n with
          child_ptr_indexes := (vaErase n.child_ptr_indexes b).2,
          children := (vaErase n.children pos).2,
          num_children := n.num_children - 1 } with
        ts := Node48.max_child_ts tsOf { n with
          child_ptr_indexes := (vaErase n.child_ptr_indexes b).2,
          children := (vaErase n.children pos).2,
          num_children := n.num_children - 1 } } := by
  rw [Node48.delete_child, hget]
  rfl

/-- C6: for every interior node that has a child at byte `b` — FlatNode,
Node48 or Node256 — `delete_child(b)` returns a node whose `ts` equals the
maximum timestamp among the children present in the result (0 when none
remain), regardless of the node's previous `ts`. -/
theorem claim_C6_delete_child_ts :
    (∀ (α : Type) (tsOf : α → Nat) (n : FlatNode α) (b : Nat),
      n.children.length = n.keys.length → n.num_children ≤ n.keys.length →
      b ∈ n.keys.take n.num_children →
      ∃ m, FlatNode.delete_child tsOf n b = some m ∧
        m.ts = (slotsTs tsOf m.children).foldr max 0) ∧
    (∀ (α : Type) (tsOf : α → Nat) (n : Node48 α) (b pos : Nat),
      vaGet n.child_ptr_indexes b = some pos →
      ∃ m, Node48.delete_child tsOf n b = some m ∧
        m.ts = (slotsTs tsOf m.children).foldr max 0) ∧
    (∀ (α : Type) (tsOf : α → Nat) (n : Node256 α) (b : Nat),
      (Node256.find_child n b).isSome →
      (Node256.delete_child tsOf n b).ts
        = (slotsTs tsOf (Node256.delete_child tsOf n b).children).foldr max 0) := by
  refine ⟨?_, ?_, ?_⟩
  · intro α tsOf n b hlen hnc hmem
    obtain ⟨m, hdel, hts, _⟩ := flat_delete_child_spec tsOf n b hlen hnc hmem
    exact ⟨m, hdel, hts⟩
  · intro α tsOf n b pos hget
    exact ⟨_, node48_delete_eq tsOf n b pos hget, ts_after_max48 tsOf _⟩
  · intro α tsOf n b _
    exact ts_after_max256 tsOf _

/-- C6 witness: the three parts applied at concrete two-child nodes. -/
theorem claim_C6_witness :
    (∃ m, FlatNode.delete_child (fun x => x)
        (⟨[], 9, [3, 7, 0, 0], [some 30, some 70, none, none], 2⟩ : FlatNode Nat) 3
        = some m ∧ m.ts = (slotsTs (fun x => x) m.children).foldr max 0) ∧
    (∃ m, Node48.delete_child (fun x => x)
        (Node48.insert_child (Node48.insert_child (Node48.new []) 7 (70 : Nat)) 3 30) 7
        = some m ∧ m.ts = (slotsTs (fun x => x) m.children).foldr max 0) ∧
    ((Node256.delete_child (fun x => x)
        (Node256.insert_child (Node256.insert_child (Node256.new []) 7 (70 : Nat)) 3 30) 7).ts
      = (slotsTs (fun x => x)
          (Node256.delete_child (fun x => x)
            (Node256.insert_child (Node256.insert_child (Node256.new []) 7 (70 : Nat)) 3 30)
            7).children).foldr max 0) := by
  refine ⟨?_, ?_, ?_⟩
  · exact claim_C6_delete_child_ts.1 Nat (fun x => x) _ 3 rfl (by decide) (by decide)
  · exact claim_C6_delete_child_ts.2.1 Nat (fun x => x) _ 7 0 (by decide)
  · exact claim_C6_delete_child_ts.2.2 Nat (fun x => x) _ 7 (by decide)

/-- C10: `Node256::delete_child` at a byte with no child does not panic: it
returns a node with the same `num_children`, the same `find_child` answer at
every byte, and `ts` recomputed to the maximum child timestamp — unlike
`FlatNode::delete_child` and `Node48::delete_child`, which panic (no value)
when the byte is absent. -/
theorem claim_C10_delete_absent :
    (∀ (α : Type) (tsOf : α → Nat) (n : Node256 α) (b : Nat),
      Node256.find_child n b = none →
      (Node256.delete_child tsOf n b).num_children = n.num_children ∧
      (∀ b2, Node256.find_child (Node256.delete_child tsOf n b) b2
        = Node256.find_child n b2) ∧
      (Node256.delete_child tsOf n b).ts
        = (slotsTs tsOf (Node256.delete_child tsOf n b).children).foldr max 0) ∧
    (∀ (α : Type) (tsOf : α → Nat) (n : FlatNode α) (b : Nat),
      b ∉ n.keys.take n.num_children → FlatNode.delete_child tsOf n b = none) ∧
    (∀ (α : Type) (tsOf : α → Nat) (n : Node48 α) (b : Nat),
      vaGet n.child_ptr_indexes b = none → Node48.delete_child tsOf n b = none) := by
  refine ⟨?_, ?_, ?_⟩
  · intro α tsOf n b habs
    refine ⟨?_, ?_, ?_⟩
    · show (if ((vaErase n.children b).1).isSome then n.num_children - 1
        else n.num_children) = n.num_children
      rw [show (vaErase n.children b).1 = Node256.find_child n b from rfl, habs]
      rfl
    · intro b2
      show vaGet (n.children.set b none) b2 = vaGet n.children b2
      by_cases hb2 : b = b2
      · subst hb2
        have habs2 : (n.children[b]?).join = none := habs
        show ((n.children.set b none)[b]?).join = (n.children[b]?).join
        rcases h : n.children[b]? with _ | s
        · rw [List.getElem?_eq_none_iff] at h
          have h1 : (n.children.set b none)[b]? = none :=
            List.getElem?_eq_none (by simp; omega)
          rw [h1]
        · have hblt : b < n.children.length := (List.getElem?_eq_some.mp h).1
          rw [h] at habs2
          cases s with
          | none => rw [List.getElem?_set_self hblt]
          | some c => simp at habs2
      · show ((n.children.set b none)[b2]?).join = (n.children[b2]?).join
        rw [List.getElem?_set_ne hb2]
    · exact ts_after_max256 tsOf _
  · intro α tsOf n b habs
    have hnone : (n.keys.take n.num_children).findIdx? (fun k => k == b) = none := by
      rw [List.findIdx?_eq_none_iff]
      intro x hx
      have : x ≠ b := fun hcon => habs (hcon ▸ hx)
      exact beq_false_of_ne this
    rw [FlatNode.delete_child]
    simp [hnone]
  · intro α tsOf n b habs
    rw [Node48.delete_child]
    simp [habs]

/-- C10 witness: deleting the absent byte 9 from a concrete two-child Node256
leaves everything in place, while FlatNode and Node48 panic on the same
byte. -/
theorem claim_C10_witness :
    ((Node256.delete_child (fun x => x)
        (Node256.insert_child (Node256.insert_child (Node256.new []) 7 (70 : Nat)) 3 30)
        9).num_children
      = (Node256.insert_child (Node256.insert_child (Node256.new []) 7 (70 : Nat)) 3
          30).num_children) ∧
      Node256.find_child
        (Node256.insert_child (Node256.insert_child (Node256.new []) 7 (70 : Nat)) 3 30) 9
        = none ∧
      FlatNode.delete_child (fun x => x)
        (⟨[], 9, [3, 7, 0, 0], [some 30, some 70, none, none], 2⟩ : FlatNode Nat) 9
        = none ∧
      Node48.delete_child (fun x => x)
        (Node48.insert_child (Node48.insert_child (Node48.new []) 7 (70 : Nat)) 3 30) 9
        = none := by
  refine ⟨?_, by decide, ?_, ?_⟩
  · exact (claim_C10_delete_absent.1 Nat (fun x => x) _ 9 (by decide)).1
  · exact claim_C10_delete_absent.2.1 Nat (fun x => x) _ 9 (by decide)
  · exact claim_C10_delete_absent.2.2 Nat (fun x => x) _ 9 (by decide)

/-- C9 witness: adding byte 4 to a concrete unsorted two-child width-4 node
places it correctly and leaves byte 9 and the absent byte 5 unchanged. -/
theorem claim_C9_witness :
    ((⟨[], 0, [9, 2, 0, 0], [some 90, some 20, none, none], 2⟩ :
        FlatNode Nat)).children.length
      = ((⟨[], 0, [9, 2, 0, 0], [some 90, some 20, none, none], 2⟩ :
          FlatNode Nat)).keys.length ∧
      ((⟨[], 0, [9, 2, 0, 0], [some 90, some 20, none, none], 2⟩ :
          FlatNode Nat)).num_children
        < ((⟨[], 0, [9, 2, 0, 0], [some 90, some 20, none, none], 2⟩ :
            FlatNode Nat)).keys.length ∧
      (4 ∉ [9, 2, 0, 0].take 2) ∧
      ∃ m, FlatNode.add_child (fun x => x)
          (⟨[], 0, [9, 2, 0, 0], [some 90, some 20, none, none], 2⟩ : FlatNode Nat)
          4 (40 : Nat) = some m ∧
        m.find_child 4 = some (some 40) ∧
        ∀ b2, b2 ≠ 4 → m.find_child b2
          = FlatNode.find_child
              (⟨[], 0, [9, 2, 0, 0], [some 90, some 20, none, none], 2⟩ : FlatNode Nat) b2 := by
  refine ⟨rfl, by decide, by decide, ?_⟩
  exact claim_C9_add_find_child (fun x => x) _ 4 40 rfl (by decide) (by decide)

/-- `update_ts` touches only the `ts` field of a FlatNode. -/
theorem flat_update_ts_fields (tsOf : α → Nat) (n : FlatNode α) :
    (FlatNode.update_ts tsOf n).keys = n.keys ∧
      (FlatNode.update_ts tsOf n).children = n.children ∧
      (FlatNode.update_ts tsOf n).num_children = n.num_children := by
  rw [FlatNode.update_ts]
  split <;> exact ⟨rfl, rfl, rfl⟩

/-- `update_ts` touches only the `ts` field of a Node48. -/
theorem node48_update_ts_fields (tsOf : α → Nat) (n : Node48 α) :
    (Node48.update_ts tsOf n).child_ptr_indexes = n.child_ptr_indexes ∧
      (Node48.update_ts tsOf n).children = n.children ∧
      (Node48.update_ts tsOf n).num_children = n.num_children := by
  rw [Node48.update_ts]
  split <;> exact ⟨rfl, rfl, rfl⟩

/-- `update_ts` touches only the `ts` field of a Node256. -/
theorem node256_update_ts_fields (tsOf : α → Nat) (n : Node256 α) :
    (Node256.update_ts tsOf n).children = n.children ∧
      (Node256.update_ts tsOf n).num_children = n.num_children := by
  rw [Node256.update_ts]
  split <;> exact ⟨rfl, rfl⟩

/-- The ascending copy loop of `resize` succeeds when reads and writes stay in
bounds, copying the first `i` slots and keeping the rest. -/
theorem copyInto_spec (sk : List Nat) (sc : List (Option α)) :
    ∀ (i : Nat) (ks : List Nat) (cs : List (Option α)),
      i ≤ sk.length → i ≤ sc.length → i ≤ ks.length → i ≤ cs.length →
      ∃ ks2 cs2, copyInto sk sc i ks cs = some (ks2, cs2) ∧
        ks2.length = ks.length ∧ cs2.length = cs.length ∧
        (∀ j, j < i → ks2[j]? = sk[j]? ∧ cs2[j]? = sc[j]?) ∧
        (∀ j, i ≤ j → ks2[j]? = ks[j]? ∧ cs2[j]? = cs[j]?) := by
  intro i
  induction i with
  | zero =>
    intro ks cs _ _ _ _
    exact ⟨ks, cs, by rw [copyInto], rfl, rfl, fun j hj => by omega,
      fun j _ => ⟨rfl, rfl⟩⟩
  | succ i ih =>
    intro ks cs h1 h2 h3 h4
    obtain ⟨ks1, cs1, hrec, hl1, hl2, hcopied, hkept⟩ :=
      ih ks cs (by omega) (by omega) (by omega) (by omega)
    obtain ⟨k, hk⟩ : ∃ k, sk[i]? = some k := by
      rcases h : sk[i]? with _ | k
      · rw [List.getElem?_eq_none_iff] at h; omega
      · exact ⟨k, rfl⟩
    obtain ⟨ch, hch⟩ : ∃ ch, sc[i]? = some ch := by
      rcases h : sc[i]? with _ | ch
      · rw [List.getElem?_eq_none_iff] at h; omega
      · exact ⟨ch, rfl⟩
    have hs1 : setChecked ks1 i k = some (ks1.set i k) := by
      rw [setChecked, if_pos (by omega)]
    have hs2 : setChecked cs1 i ch = some (cs1.set i ch) := by
      rw [setChecked, if_pos (by omega)]
    refine ⟨ks1.set i k, cs1.set i ch, ?_, by simp [hl1], by simp [hl2], ?_, ?_⟩
    · rw [copyInto]
      simp [hrec, hk, hch, hs1, hs2]
    · intro j hj
      rcases Nat.lt_or_ge j i with hji | hji
      · rw [List.getElem?_set_ne (by omega), List.getElem?_set_ne (by omega)]
        exact hcopied j hji
      · have hji2 : j = i := by omega
        subst hji2
        rw [List.getElem?_set_self (by omega), List.getElem?_set_self (by omega),
          hk, hch]
        exact ⟨rfl, rfl⟩
    · intro j hj
      rw [List.getElem?_set_ne (by omega), List.getElem?_set_ne (by omega)]
      exact hkept j (by omega)

/-- `FlatNode::resize` into a capacity at least the occupancy succeeds and
preserves both the byte-to-child mapping and the child count (part of
C7). -/
theorem resize_preserves (tsOf : α → Nat) (n : FlatNode α) (newW : Nat)
    (hlen : n.children.length = n.keys.length)
    (hnc : n.num_children ≤ n.keys.length)
    (hncW : n.num_children ≤ newW) :
    ∃ m, FlatNode.resize tsOf n newW = some m ∧
      m.num_children = n.num_children ∧
      ∀ b, m.find_child b = n.find_child b := by
  obtain ⟨ks2, cs2, hcopy, hl1, hl2, hcopied, hkept⟩ :=
    copyInto_spec n.keys n.children n.num_children
      (List.replicate newW 0) (List.replicate newW (none : Option α))
      hnc (by omega) (by simp; omega) (by simp; omega)
  have hl1b : ks2.length = newW := by simpa using hl1
  have hl2b : cs2.length = newW := by simpa using hl2
  set m0 : FlatNode α := ⟨n.pfx, n.ts, ks2, cs2, n.num_children⟩ with hm0
  refine ⟨FlatNode.update_ts tsOf m0, ?_, ?_, ?_⟩
  · rw [FlatNode.resize]
    simp only [FlatNode.new, hcopy, Option.bind_some]
    rfl
  · rw [(flat_update_ts_fields tsOf m0).2.2]
  · intro b
    obtain ⟨hk0, hc0, hn0⟩ := flat_update_ts_fields tsOf m0
    have htake : ks2.take (min ks2.length n.num_children)
        = n.keys.take (min n.keys.length n.num_children) := by
      rw [Nat.min_eq_right (by omega), Nat.min_eq_right hnc]
      apply List.ext_getElem?_iff.mpr
      intro j
      rw [List.getElem?_take, List.getElem?_take]
      by_cases hj : j < n.num_children
      · rw [if_pos hj, if_pos hj]
        exact (hcopied j hj).1
      · rw [if_neg hj, if_neg hj]
    have hidx : (FlatNode.update_ts tsOf m0).index b = n.index b := by
      rw [FlatNode.index, FlatNode.index, hk0, hn0]
      show (ks2.take (min ks2.length n.num_children)).findIdx? (fun c => b == c) = _
      rw [htake]
    rw [FlatNode.find_child, FlatNode.find_child, hidx]
    rcases hni : n.index b with _ | j
    · rfl
    · have hjlt : j < n.num_children := by
        rw [FlatNode.index] at hni
        rw [List.findIdx?_eq_some_iff_getElem] at hni
        obtain ⟨h, _, _⟩ := hni
        simp only [List.length_take] at h
        omega
      have hcj : (FlatNode.update_ts tsOf m0).children[j]? = n.children[j]? := by
        rw [hc0]
        show cs2[j]? = n.children[j]?
        exact (hcopied j hjlt).2
      show (match (FlatNode.update_ts tsOf m0).children[j]? with
        | none => none
        | some c2 => some c2)
        = (match n.children[j]? with
          | none => none
          | some c2 => some c2)
      rw [hcj]

/-- Membership in the VecArray iterator output: exactly the occupied slots,
shifted by the start index. -/
theorem vaIterGo_mem (l : List (Option β)) :
    ∀ (s : Nat) (p : Nat × β), p ∈ vaIterGo s l ↔
      ∃ j, p.1 = s + j ∧ l[j]? = some (some p.2) := by
  induction l with
  | nil => intro s p; simp [vaIterGo]
  | cons x rest ih =>
    intro s p
    cases x with
    | none =>
      rw [show vaIterGo s (none :: rest) = vaIterGo (s + 1) rest from rfl, ih (s + 1)]
      constructor
      · rintro ⟨j, h1, h2⟩
        exact ⟨j + 1, by omega, by simpa using h2⟩
      · rintro ⟨j, h1, h2⟩
        cases j with
        | zero => simp at h2
        | succ j2 => exact ⟨j2, by omega, by simpa using h2⟩
    | some a =>
      rw [show vaIterGo s (some a :: rest) = (s, a) :: vaIterGo (s + 1) rest from rfl]
      rw [List.mem_cons, ih (s + 1)]
      constructor
      · rintro (rfl | ⟨j, h1, h2⟩)
        · exact ⟨0, by omega, by simp⟩
        · exact ⟨j + 1, by omega, by simpa using h2⟩
      · rintro ⟨j, h1, h2⟩
        cases j with
        | zero =>
          left
          simp only [List.getElem?_cons_zero] at h2
          obtain ⟨p1, p2⟩ := p
          simp only at h1
          cases h2
          simp [h1]
        | succ j2 => exact Or.inr ⟨j2, by omega, by simpa using h2⟩

/-- The VecArray iterator's indices lie in `[s, s + length)`. -/
theorem vaIterGo_fst_bounds (l : List (Option β)) (s : Nat) (p : Nat × β)
    (hp : p ∈ vaIterGo s l) : s ≤ p.1 ∧ p.1 < s + l.length := by
  obtain ⟨j, h1, h2⟩ := (vaIterGo_mem l s p).mp hp
  have : j < l.length := (List.getElem?_eq_some.mp h2).1
  omega

/-- The VecArray iterator's indices are strictly increasing. -/
theorem vaIterGo_pairwise (l : List (Option β)) :
    ∀ s, (vaIterGo s l).Pairwise (fun p q => p.1 < q.1) := by
  induction l with
  | nil => intro s; simp [vaIterGo]
  | cons x rest ih =>
    intro s
    cases x with
    | none => exact ih (s + 1)
    | some a =>
      rw [show vaIterGo s (some a :: rest) = (s, a) :: vaIterGo (s + 1) rest from rfl]
      refine List.Pairwise.cons ?_ (ih (s + 1))
      intro q hq
      have := (vaIterGo_fst_bounds rest (s + 1) q hq).1
      show s < q.1
      omega

/-- `assocFind` on a cons. -/
theorem assocFind_cons (q : Nat × β) (L : List (Nat × β)) (b : Nat) :
    assocFind (q :: L) b = if q.1 = b then some q.2 else assocFind L b := by
  by_cases h : q.1 = b
  · rw [if_pos h, assocFind, List.find?_cons_of_pos _ (by simpa using h)]
    rfl
  · rw [if_neg h, assocFind, List.find?_cons_of_neg _ (by simpa using h)]
    rfl

/-- `assocFind` misses exactly when the byte is absent from the keys. -/
theorem assocFind_eq_none_iff (L : List (Nat × β)) (b : Nat) :
    assocFind L b = none ↔ ∀ q ∈ L, q.1 ≠ b := by
  rw [assocFind]
  constructor
  · intro h q hq
    rcases hf : L.find? (fun p => p.1 == b) with _ | v
    · rw [List.find?_eq_none] at hf
      simpa using hf q hq
    · rw [hf] at h; simp at h
  · intro h
    have : L.find? (fun p => p.1 == b) = none := by
      rw [List.find?_eq_none]
      intro q hq
      simpa using h q hq
    rw [this]
    rfl

/-- `assocFind` distributes over append: the left list wins. -/
theorem assocFind_append (L1 L2 : List (Nat × β)) (b : Nat) :
    assocFind (L1 ++ L2) b = (assocFind L1 b).or (assocFind L2 b) := by
  rw [assocFind, List.find?_append]
  rcases h1 : L1.find? (fun p => p.1 == b) with _ | v
  · simp [assocFind, h1]
  · simp [assocFind, h1]

/-- The VecArray iterator, viewed as an association list, looks up exactly the
slot contents (shifted by the start index). -/
theorem assocFind_vaIterGo (l : List (Option β)) :
    ∀ s b, assocFind (vaIterGo s l) b
      = if s ≤ b then (l[b - s]?).join else none := by
  induction l with
  | nil =>
    intro s b
    rw [show vaIterGo s ([] : List (Option β)) = [] from rfl]
    rw [show assocFind ([] : List (Nat × β)) b = none from rfl]
    split <;> simp
  | cons x rest ih =>
    intro s b
    cases x with
    | none =>
      rw [show vaIterGo s (none :: rest) = vaIterGo (s + 1) rest from rfl, ih (s + 1)]
      by_cases h1 : s + 1 ≤ b
      · rw [if_pos h1, if_pos (by omega)]
        have hb : b - s = (b - (s + 1)) + 1 := by omega
        rw [hb]
        simp
      · rw [if_neg h1]
        by_cases h2 : s ≤ b
        · have hb : b = s := by omega
          subst hb
          rw [if_pos (Nat.le_refl b), Nat.sub_self]
          simp
        · rw [if_neg h2]
    | some a =>
      rw [show vaIterGo s (some a :: rest) = (s, a) :: vaIterGo (s + 1) rest from rfl]
      rw [assocFind_cons, ih (s + 1)]
      by_cases hb : s = b
      · subst hb
        rw [if_pos rfl, if_pos (Nat.le_refl s), Nat.sub_self]
        simp
      · rw [if_neg hb]
        by_cases h1 : s + 1 ≤ b
        · rw [if_pos h1, if_pos (by omega)]
          have hd : b - s = (b - (s + 1)) + 1 := by omega
          rw [hd]
          simp
        · rw [if_neg h1, if_neg (by omega)]

/-- `VecArray::get` equals association lookup in the iterator output. -/
theorem vaGet_eq_assocFind (l : List (Option β)) (b : Nat) :
    vaGet l b = assocFind (vaIter l) b := by
  rw [vaIter, assocFind_vaIterGo l 0 b, if_pos (Nat.zero_le b)]
  rw [vaGet]
  simp

/-- `revFind` misses exactly when every index below the bound refutes the
predicate. -/
theorem revFind_eq_none (p : Nat → Bool) :
    ∀ n, revFind p n = none ↔ ∀ i, i < n → p i = false := by
  intro n
  induction n with
  | zero => simp [revFind]
  | succ m ih =>
    rw [revFind]
    by_cases hp : p m
    · rw [if_pos hp]
      constructor
      · intro h; cases h
      · intro h
        have := h m (by omega)
        rw [hp] at this
        cases this
    · rw [if_neg hp]
      rw [ih]
      constructor
      · intro h i hi
        rcases Nat.lt_or_ge i m with h2 | h2
        · exact h i h2
        · have : i = m := by omega
          subst this
          simpa using hp
      · intro h i hi
        exact h i (by omega)

/-- Association lookup in a zip of parallel lists, phrased through the key
scan. -/
theorem findIdx_zip_assoc (es : List Nat) (ds : List β) (b : Nat)
    (hlen : es.length = ds.length) :
    assocFind (es.zip ds) b
      = (es.findIdx? (fun c => b == c)).bind (fun j => ds[j]?) := by
  induction es generalizing ds with
  | nil =>
    cases ds with
    | nil => rfl
    | cons d ds2 => simp at hlen
  | cons e es2 ih =>
    cases ds with
    | nil => simp at hlen
    | cons d ds2 =>
      rw [show (e :: es2).zip (d :: ds2) = (e, d) :: es2.zip ds2 from rfl]
      rw [assocFind_cons]
      rw [show (e :: es2).findIdx? (fun c => b == c)
        = if b == e then some 0 else (es2.findIdx? (fun c => b == c)).map (· + 1) from by
          rw [List.findIdx?_cons]
          by_cases h : b == e
          · rw [if_pos h, if_pos h]
          · rw [if_neg h, if_neg h]
            rw [List.findIdx?_succ]]
      by_cases h : e = b
      · rw [if_pos h, if_pos (by simpa using h.symm)]
        simp
      · rw [if_neg h, if_neg (by simpa using fun hc => h hc.symm)]
        rw [ih ds2 (by simpa using hlen)]
        rcases hf : es2.findIdx? (fun c => b == c) with _ | j
        · rfl
        · show ds2[j]? = (d :: ds2)[j + 1]?
          simp

/-- `FlatNode::find_child` on a node whose occupied prefix decomposes into
parallel key/child lists is association lookup in their zip. -/
theorem flat_find_child_pairs (n : FlatNode α) (es : List Nat) (ds : List α)
    (hk : n.keys.take n.num_children = es)
    (hc : n.children.take n.num_children = ds.map some)
    (hnck : n.num_children ≤ n.keys.length)
    (hncc : n.num_children ≤ n.children.length) :
    ∀ b, n.find_child b = some (assocFind (es.zip ds) b) := by
  intro b
  have heslen : es.length = n.num_children := by
    rw [← hk]
    simp only [List.length_take]
    omega
  have hdslen : ds.length = n.num_children := by
    have := congrArg List.length hc
    simp only [List.length_take, List.length_map] at this
    omega
  have hidx : n.index b = es.findIdx? (fun c => b == c) := by
    rw [FlatNode.index, Nat.min_eq_right hnck, hk]
  rw [FlatNode.find_child, hidx, findIdx_zip_assoc es ds b (by omega)]
  rcases hf : es.findIdx? (fun c => b == c) with _ | j
  · rfl
  · have hjlt : j < n.num_children := by
      rw [List.findIdx?_eq_some_iff_getElem] at hf
      obtain ⟨h, _, _⟩ := hf
      omega
    have hcj : n.children[j]? = some (some (ds.get ⟨j, by omega⟩)) := by
      have h1 : (n.children.take n.num_children)[j]? = n.children[j]? := by
        rw [List.getElem?_take, if_pos hjlt]
      rw [← h1, hc, List.getElem?_map, List.getElem?_eq_getElem (by omega)]
      rfl
    show (match n.children[j]? with
      | none => none
      | some c2 => some c2) = some (ds[j]?)
    rw [hcj, List.getElem?_eq_getElem (by omega)]
    rfl

/-- The first free slot of a fully-occupied prefix followed by empties is the
length of the prefix. -/
theorem vaFirstFreePos_somes (A : List β) (k : Nat) (hk : 0 < k) :
    vaFirstFreePos (A.map some ++ List.replicate k (none : Option β)) = A.length := by
  rw [vaFirstFreePos]
  have h : (A.map some ++ List.replicate k (none : Option β)).findIdx?
      (fun s => s.isNone) = some A.length := by
    rw [findIdx?_eq_some_iff_getElemOpt]
    constructor
    · refine ⟨none, ?_, rfl⟩
      rw [List.getElem?_append, if_neg (by simp)]
      simp only [List.length_map, Nat.sub_self]
      rw [List.getElem?_replicate, if_pos hk]
    · intro j hj x hx
      rw [List.getElem?_append, if_pos (by simpa using hj)] at hx
      rw [List.getElem?_map] at hx
      rcases hA : A[j]? with _ | a
      · rw [hA] at hx; cases hx
      · rw [hA] at hx
        cases hx
        rfl
  rw [h]
  rfl

/-- Setting the first padding slot extends the occupied prefix. -/
theorem set_append_replicate (A : List β) (k : Nat) (d v : β) (hk : 0 < k) :
    (A ++ List.replicate k d).set A.length v
      = (A ++ [v]) ++ List.replicate (k - 1) d := by
  rw [List.set_append_right _ _ (Nat.le_refl _), Nat.sub_self]
  obtain ⟨k2, rfl⟩ : ∃ k2, k = k2 + 1 := ⟨k - 1, by omega⟩
  rw [List.replicate_succ]
  simp

/-- A pure step makes `foldlM` total. -/
theorem foldlM_pure (g : σ → γ → σ) :
    ∀ (L : List γ) (m : σ),
      L.foldlM (fun a x => (some (g a x) : Option σ)) m = some (L.foldl g m) := by
  intro L
  induction L with
  | nil => intro m; rfl
  | cons x rest ih =>
    intro m
    rw [List.foldlM_cons, List.foldl_cons]
    exact ih (g m x)

/-- A fold over occupied byte keys, whose step re-reads each key from the
source, folds the resolved `(key, child)` pairs. -/
theorem foldlM_resolve_diag (ch : List (Option α)) (f : σ → Nat → α → Option σ) :
    ∀ (L : List (Nat × α)), (∀ p ∈ L, vaGet ch p.1 = some p.2) →
      ∀ (m : σ),
        (L.map Prod.fst).foldlM (fun acc k => do
            let child ← vaGet ch k
            f acc k child) m
          = L.foldlM (fun acc q => f acc q.1 q.2) m := by
  intro L
  induction L with
  | nil => intro _ m; rfl
  | cons q rest ih =>
    intro hL m
    rw [List.map_cons, List.foldlM_cons, List.foldlM_cons]
    have hq : vaGet ch q.1 = some q.2 := hL q (List.mem_cons_self _ _)
    show ((vaGet ch q.1).bind (fun child => f m q.1 child)).bind _ = _
    rw [hq]
    show (f m q.1 q.2).bind _ = (f m q.1 q.2).bind _
    rcases hf : f m q.1 q.2 with _ | m2
    · rfl
    · show (rest.map Prod.fst).foldlM _ m2 = _
      exact ih (fun p hp => hL p (List.mem_cons_of_mem _ hp)) m2

/-- A fold over `(byte, slot)` pairs, whose step reads each slot from the
source child array, folds some list of resolved `(byte, child)` pairs with
the same bytes and the same association view. -/
theorem foldlM_resolve_pairs (ch : List (Option α)) (f : σ → Nat → α → Option σ) :
    ∀ (ps : List (Nat × Nat)), (∀ p ∈ ps, (vaGet ch p.2).isSome) →
      ∃ L : List (Nat × α),
        L.map Prod.fst = ps.map Prod.fst ∧
        (∀ b, assocFind L b = (assocFind ps b).bind (fun pos => vaGet ch pos)) ∧
        ∀ (m : σ), ps.foldlM (fun acc kp => do
            let child ← vaGet ch kp.2
            f acc kp.1 child) m
          = L.foldlM (fun acc q => f acc q.1 q.2) m := by
  intro ps
  induction ps with
  | nil => intro _; exact ⟨[], rfl, fun b => rfl, fun m => rfl⟩
  | cons p rest ih =>
    intro hocc
    obtain ⟨c0, hc0⟩ : ∃ c0, vaGet ch p.2 = some c0 := by
      have := hocc p (List.mem_cons_self _ _)
      rcases h : vaGet ch p.2 with _ | c0
      · rw [h] at this; cases this
      · exact ⟨c0, rfl⟩
    obtain ⟨L, hfst, hassoc, hfold⟩ :=
      ih (fun q hq => hocc q (List.mem_cons_of_mem _ hq))
    refine ⟨(p.1, c0) :: L, by simp [hfst], ?_, ?_⟩
    · intro b
      rw [assocFind_cons, assocFind_cons]
      by_cases hb : p.1 = b
      · rw [if_pos hb, if_pos hb]
        show some c0 = (some p.2).bind (fun pos => vaGet ch pos)
        rw [show (some p.2).bind (fun pos => vaGet ch pos) = vaGet ch p.2 from rfl, hc0]
      · rw [if_neg hb, if_neg hb]
        exact hassoc b
    · intro m
      rw [List.foldlM_cons, List.foldlM_cons]
      show ((vaGet ch p.2).bind (fun child => f m p.1 child)).bind _ = _
      rw [hc0]
      show (f m p.1 c0).bind _ = (f m p.1 c0).bind _
      rcases hf : f m p.1 c0 with _ | m2
      · rfl
      · exact hfold m2

/-- Re-inserting distinct bytes (each below 256) into a Node48 whose child
vector is a densely packed prefix: the loop keeps the vector dense, counts
every insertion, and the final byte-to-child view is the inserted association
extended by the previous view. -/
theorem build48_loop :
    ∀ (rest : List (Nat × α)) (A : List α) (g : Nat → Option α) (m : Node48 α),
      m.children = A.map some ++ List.replicate (48 - A.length) none →
      m.num_children = A.length →
      (∀ b, Node48.find_child m b = g b) →
      (∀ b j, vaGet m.child_ptr_indexes b = some j → j < A.length) →
      m.child_ptr_indexes.length = 256 →
      A.length + rest.length ≤ 48 →
      (∀ q ∈ rest, q.1 < 256) →
      (rest.map Prod.fst).Nodup →
      (rest.foldl (fun acc q => acc.insert_child q.1 q.2) m).num_children
          = A.length + rest.length ∧
        ∀ b, Node48.find_child (rest.foldl (fun acc q => acc.insert_child q.1 q.2) m) b
          = (assocFind rest b).or (g b) := by
  intro rest
  induction rest with
  | nil =>
    intro A g m h1 h2 h3 h4 h5 h6 h7 h8
    refine ⟨by simpa using h2, ?_⟩
    intro b
    show Node48.find_child m b = (assocFind [] b).or (g b)
    rw [h3 b]
    rfl
  | cons q rest ih =>
    intro A g m h1 h2 h3 h4 h5 h6 h7 h8
    have hq256 : q.1 < 256 := h7 q (List.mem_cons_self _ _)
    have hAlt : A.length < 48 := by
      simp only [List.length_cons] at h6
      omega
    have hpos : vaFirstFreePos m.children = A.length := by
      rw [h1]
      exact vaFirstFreePos_somes A (48 - A.length) (by omega)
    have hm1c : (m.insert_child q.1 q.2).children
        = (A ++ [q.2]).map some ++ List.replicate (48 - (A ++ [q.2]).length) none := by
      show vaSet m.children (vaFirstFreePos m.children) q.2 = _
      rw [hpos, h1, vaSet]
      have hs := set_append_replicate (A.map some) (48 - A.length)
        (none : Option α) (some q.2) (by omega)
      rw [show (A.map some).length = A.length from by simp] at hs
      rw [hs]
      have hcount : 48 - A.length - 1 = 48 - (A ++ [q.2]).length := by
        simp only [List.length_append, List.length_cons, List.length_nil]
        omega
      rw [hcount]
      simp [List.map_append]
    have hm1i : (m.insert_child q.1 q.2).child_ptr_indexes
        = m.child_ptr_indexes.set q.1 (some A.length) := by
      show vaSet m.child_ptr_indexes q.1 (vaFirstFreePos m.children) = _
      rw [hpos, vaSet]
    have hm1n : (m.insert_child q.1 q.2).num_children = A.length + 1 := by
      show m.num_children + 1 = A.length + 1
      omega
    have hfind1 : ∀ b, Node48.find_child (m.insert_child q.1 q.2) b
        = if b = q.1 then some q.2 else g b := by
      intro b
      show (vaGet (m.insert_child q.1 q.2).child_ptr_indexes b).bind
        (fun idx => vaGet (m.insert_child q.1 q.2).children idx) = _
      by_cases hb : b = q.1
      · rw [if_pos hb, hm1i, hb]
        have hv : vaGet (m.child_ptr_indexes.set q.1 (some A.length)) q.1
            = some A.length := by
          rw [vaGet, List.getElem?_set_self (by omega)]
          rfl
        rw [hv]
        show vaGet (m.insert_child q.1 q.2).children A.length = some q.2
        rw [hm1c, vaGet]
        rw [List.getElem?_append_left (by
          simp only [List.length_map, List.length_append, List.length_cons,
            List.length_nil]
          omega)]
        rw [List.getElem?_map, List.getElem?_append_right (Nat.le_refl _),
          Nat.sub_self]
        rfl
      · rw [if_neg hb]
        have hv : vaGet (m.insert_child q.1 q.2).child_ptr_indexes b
            = vaGet m.child_ptr_indexes b := by
          rw [hm1i, vaGet, vaGet, List.getElem?_set_ne (fun hc => hb hc.symm)]
        rw [hv, ← h3 b]
        show _ = (vaGet m.child_ptr_indexes b).bind
          (fun idx => vaGet m.children idx)
        rcases hg : vaGet m.child_ptr_indexes b with _ | j
        · rfl
        · have hjA : j < A.length := h4 b j hg
          show vaGet (m.insert_child q.1 q.2).children j = vaGet m.children j
          rw [hm1c, h1, vaGet, vaGet]
          rw [List.getElem?_append_left (by
            simp only [List.length_map, List.length_append, List.length_cons,
              List.length_nil]
            omega)]
          rw [List.getElem?_append_left (by
            simp only [List.length_map]
            omega)]
          rw [List.getElem?_map, List.getElem?_map,
            List.getElem?_append_left (by omega)]
    have hbound1 : ∀ b j, vaGet (m.insert_child q.1 q.2).child_ptr_indexes b
        = some j → j < A.length + 1 := by
      intro b j hbj
      rw [hm1i] at hbj
      by_cases hb : b = q.1
      · rw [hb, vaGet, List.getElem?_set_self (by omega)] at hbj
        have hbj2 : some A.length = some j := hbj
        injection hbj2 with hbj3
        omega
      · rw [vaGet, List.getElem?_set_ne (fun hc => hb hc.symm)] at hbj
        have := h4 b j hbj
        omega
    have hq1rest : q.1 ∉ rest.map Prod.fst := by
      rw [List.map_cons] at h8
      exact (List.nodup_cons.mp h8).1
    obtain ⟨ihnum, ihfind⟩ := ih (A ++ [q.2]) (fun b => if b = q.1 then some q.2 else g b)
      (m.insert_child q.1 q.2) hm1c (by simpa using hm1n) hfind1
      (by simpa using hbound1)
      (by rw [hm1i]; simpa using h5)
      (by
        simp only [List.length_append, List.length_cons, List.length_nil] at h6 ⊢
        omega)
      (fun r hr => h7 r (List.mem_cons_of_mem _ hr))
      (by rw [List.map_cons] at h8; exact (List.nodup_cons.mp h8).2)
    refine ⟨?_, ?_⟩
    · show (rest.foldl (fun acc q => acc.insert_child q.1 q.2)
          (m.insert_child q.1 q.2)).num_children = A.length + (q :: rest).length
      rw [ihnum]
      simp only [List.length_append, List.length_cons, List.length_nil]
      omega
    · intro b
      show Node48.find_child (rest.foldl (fun acc q => acc.insert_child q.1 q.2)
          (m.insert_child q.1 q.2)) b = (assocFind (q :: rest) b).or (g b)
      rw [ihfind b, assocFind_cons]
      by_cases hb : q.1 = b
      · rw [if_pos hb, if_pos hb.symm]
        have hnone : assocFind rest b = none := by
          rw [assocFind_eq_none_iff]
          intro r hr hcon
          exact hq1rest ((hcon.trans hb.symm) ▸ List.mem_map_of_mem Prod.fst hr)
        rw [hnone]
        rfl
      · rw [if_neg hb, if_neg (fun hc => hb hc.symm)]

/-- Inserting distinct bytes (each below 256) into a Node256: each insertion
bumps the count and sets the byte's slot, so the final byte-to-child view is
the inserted association extended by the previous view. -/
theorem build256_loop :
    ∀ (rest : List (Nat × α)) (f : Nat → Option α) (m : Node256 α),
      m.children.length = 256 →
      (∀ b, vaGet m.children b = f b) →
      (∀ q ∈ rest, q.1 < 256) →
      (rest.map Prod.fst).Nodup →
      (rest.foldl (fun acc q => acc.insert_child q.1 q.2) m).num_children
          = m.num_children + rest.length ∧
        ∀ b, Node256.find_child (rest.foldl (fun acc q => acc.insert_child q.1 q.2) m) b
          = (assocFind rest b).or (f b) := by
  intro rest
  induction rest with
  | nil =>
    intro f m h1 h2 h3 h4
    refine ⟨rfl, ?_⟩
    intro b
    show Node256.find_child m b = (assocFind [] b).or (f b)
    show vaGet m.children b = (assocFind [] b).or (f b)
    rw [h2 b]
    rfl
  | cons q rest ih =>
    intro f m h1 h2 h3 h4
    have hq256 : q.1 < 256 := h3 q (List.mem_cons_self _ _)
    have hm1c : (m.insert_child q.1 q.2).children
        = m.children.set q.1 (some q.2) := by
      show vaSet m.children q.1 q.2 = _
      rw [vaSet]
    have hview1 : ∀ b, vaGet (m.insert_child q.1 q.2).children b
        = if b = q.1 then some q.2 else f b := by
      intro b
      rw [hm1c]
      by_cases hb : b = q.1
      · rw [if_pos hb, hb, vaGet, List.getElem?_set_self (by omega)]
        rfl
      · rw [if_neg hb, vaGet, List.getElem?_set_ne (fun hc => hb hc.symm)]
        exact h2 b
    have hq1rest : q.1 ∉ rest.map Prod.fst := by
      rw [List.map_cons] at h4
      exact (List.nodup_cons.mp h4).1
    obtain ⟨ihnum, ihfind⟩ := ih (fun b => if b = q.1 then some q.2 else f b)
      (m.insert_child q.1 q.2)
      (by rw [hm1c]; simpa using h1) hview1
      (fun r hr => h3 r (List.mem_cons_of_mem _ hr))
      (by rw [List.map_cons] at h4; exact (List.nodup_cons.mp h4).2)
    refine ⟨?_, ?_⟩
    · show (rest.foldl (fun acc q => acc.insert_child q.1 q.2)
          (m.insert_child q.1 q.2)).num_children = m.num_children + (q :: rest).length
      rw [ihnum]
      show m.num_children + 1 + rest.length = _
      simp only [List.length_cons]
      omega
    · intro b
      show Node256.find_child (rest.foldl (fun acc q => acc.insert_child q.1 q.2)
          (m.insert_child q.1 q.2)) b = (assocFind (q :: rest) b).or (f b)
      rw [ihfind b, assocFind_cons]
      by_cases hb : q.1 = b
      · rw [if_pos hb, if_pos hb.symm]
        have hnone : assocFind rest b = none := by
          rw [assocFind_eq_none_iff]
          intro r hr hcon
          exact hq1rest ((hcon.trans hb.symm) ▸ List.mem_map_of_mem Prod.fst hr)
        rw [hnone]
        rfl
      · rw [if_neg hb, if_neg (fun hc => hb hc.symm)]

/-- When every occupied key is below the probe, `find_pos` falls through to
`num_children`: the reverse search finds no larger key. -/
theorem find_pos_at_end (n : FlatNode α) (key : Nat)
    (h : ∀ i, i < n.num_children → ¬ key < n.keys.getD i 0) :
    n.find_pos key = some n.num_children := by
  rw [FlatNode.find_pos]
  have hr : revFind (fun i => decide (key < n.keys.getD i 0)) n.num_children
      = none :=
    (revFind_eq_none _ _).mpr (fun i hi => by
      simp only [decide_eq_false_iff_not]
      exact h i hi)
  rw [hr]

/-- `insert_child` at position `num_children` on a node whose arrays are an
occupied prefix plus padding: nothing shifts and the write lands on the first
pad slot, extending the prefix. -/
theorem insert_child_append (pfx : List Nat) (ts0 : Nat) (E : List Nat)
    (D : List α) (kpad cpad : Nat) (key : Nat) (node : α)
    (hD : D.length = E.length) (hkp : 0 < kpad) (hcp : 0 < cpad) :
    FlatNode.insert_child
      ({ pfx := pfx, ts := ts0,
         keys := E ++ List.replicate kpad 0,
         children := D.map some ++ List.replicate cpad none,
         num_children := E.length } : FlatNode α) E.length key node
      = some { pfx := pfx, ts := ts0,
               keys := (E ++ [key]) ++ List.replicate (kpad - 1) 0,
               children := (D ++ [node]).map some
                 ++ List.replicate (cpad - 1) none,
               num_children := E.length + 1 } := by
  have hs : shiftTail E.length (E.length - E.length)
      (E ++ List.replicate kpad 0)
      (D.map some ++ List.replicate cpad none)
      = some (E ++ List.replicate kpad 0,
          D.map some ++ List.replicate cpad none) := by
    rw [Nat.sub_self, shiftTail]
  have hsk : setChecked (E ++ List.replicate kpad 0) E.length key
      = some ((E ++ [key]) ++ List.replicate (kpad - 1) 0) := by
    rw [setChecked, if_pos (by simp; omega)]
    rw [set_append_replicate E kpad 0 key hkp]
  have hsc : setChecked (D.map some ++ List.replicate cpad none) E.length
      (some node)
      = some ((D ++ [node]).map some ++ List.replicate (cpad - 1) none) := by
    rw [setChecked, if_pos (by simp; omega)]
    rw [show E.length = (D.map some).length from by simp [hD]]
    rw [set_append_replicate (D.map some) cpad (none : Option α) (some node) hcp]
    simp [List.map_append]
  show ((shiftTail E.length (E.length - E.length)
      (E ++ List.replicate kpad 0)
      (D.map some ++ List.replicate cpad none)).bind (fun p =>
        (setChecked p.1 E.length key).bind (fun ks2 =>
          (setChecked p.2 E.length (some node)).bind (fun cs2 =>
            some ({ pfx := pfx, ts := ts0, keys := ks2, children := cs2,
                    num_children := E.length + 1 } : FlatNode α)))))
    = some { pfx := pfx, ts := ts0,
             keys := (E ++ [key]) ++ List.replicate (kpad - 1) 0,
             children := (D ++ [node]).map some
               ++ List.replicate (cpad - 1) none,
             num_children := E.length + 1 }
  rw [hs]
  show ((setChecked (E ++ List.replicate kpad 0) E.length key).bind (fun ks2 =>
      (setChecked (D.map some ++ List.replicate cpad none) E.length
        (some node)).bind (fun cs2 =>
          some ({ pfx := pfx, ts := ts0, keys := ks2, children := cs2,
                  num_children := E.length + 1 } : FlatNode α)))) = _
  rw [hsk]
  show ((setChecked (D.map some ++ List.replicate cpad none) E.length
      (some node)).bind (fun cs2 =>
        some ({ pfx := pfx, ts := ts0,
                keys := (E ++ [key]) ++ List.replicate (kpad - 1) 0,
                children := cs2,
                num_children := E.length + 1 } : FlatNode α))) = _
  rw [hsc]
  rfl

/-- The flat re-insertion loop of `Node48::shrink`: when keys arrive in
strictly ascending order, each `find_pos` lands at the end, each insertion
extends the occupied prefix, and the loop builds exactly the key/child
association, in order, with unchanged prefix and timestamp. -/
theorem buildFlat_loop :
    ∀ (rest : List (Nat × α)) (E : List Nat) (D : List α) (m : FlatNode α)
      (newW : Nat),
      m.keys = E ++ List.replicate (newW - E.length) 0 →
      m.children = D.map some ++ List.replicate (newW - D.length) none →
      D.length = E.length →
      m.num_children = E.length →
      E.length + rest.length ≤ newW →
      (∀ e ∈ E, ∀ r ∈ rest, e < r.1) →
      rest.Pairwise (fun p q => p.1 < q.1) →
      ∃ fm, rest.foldlM (fun fn (q : Nat × α) =>
          (FlatNode.find_pos fn q.1).bind
            (fun idx => fn.insert_child idx q.1 q.2)) m = some fm ∧
        fm.pfx = m.pfx ∧ fm.ts = m.ts ∧
        fm.num_children = E.length + rest.length ∧
        fm.keys = (E ++ rest.map Prod.fst)
          ++ List.replicate (newW - (E.length + rest.length)) 0 ∧
        fm.children = (D ++ rest.map Prod.snd).map some
          ++ List.replicate (newW - (D.length + rest.length)) none := by
  intro rest
  induction rest with
  | nil =>
    intro E D m newW h1 h2 hD h4 h5 h6 h7
    exact ⟨m, rfl, rfl, rfl, by simpa using h4, by simpa using h1,
      by simpa using h2⟩
  | cons q rest ih =>
    intro E D m newW h1 h2 hD h4 h5 h6 h7
    have hE : E.length < newW := by
      simp only [List.length_cons] at h5
      omega
    have hm : m = ({ pfx := m.pfx, ts := m.ts,
                     keys := E ++ List.replicate (newW - E.length) 0,
                     children := D.map some
                       ++ List.replicate (newW - D.length) none,
                     num_children := E.length } : FlatNode α) := by
      rw [← h1, ← h2, ← h4]
    have hfp : FlatNode.find_pos m q.1 = some E.length := by
      rw [← h4]
      apply find_pos_at_end
      intro i hi
      have hiE : i < E.length := by omega
      have hk : m.keys.getD i 0 = E.get ⟨i, hiE⟩ := by
        rw [h1, List.getD_eq_getElem?_getD, List.getElem?_append_left hiE,
          List.getElem?_eq_getElem hiE]
        rfl
      rw [hk]
      have hlt : E.get ⟨i, hiE⟩ < q.1 :=
        h6 _ (List.getElem_mem hiE) q (List.mem_cons_self _ _)
      omega
    have hstep : FlatNode.insert_child m E.length q.1 q.2
        = some ({ pfx := m.pfx, ts := m.ts,
                  keys := (E ++ [q.1])
                    ++ List.replicate (newW - E.length - 1) 0,
                  children := (D ++ [q.2]).map some
                    ++ List.replicate (newW - D.length - 1) none,
                  num_children := E.length + 1 } : FlatNode α) := by
      rw [hm]
      exact insert_child_append m.pfx m.ts E D (newW - E.length)
        (newW - D.length) q.1 q.2 hD (by omega) (by omega)
    obtain ⟨fm, ihfold, ihpfx, ihts, ihnum, ihkeys, ihch⟩ :=
      ih (E ++ [q.1]) (D ++ [q.2])
        ({ pfx := m.pfx, ts := m.ts,
           keys := (E ++ [q.1]) ++ List.replicate (newW - E.length - 1) 0,
           children := (D ++ [q.2]).map some
             ++ List.replicate (newW - D.length - 1) none,
           num_children := E.length + 1 } : FlatNode α) newW
        (by rw [show newW - (E ++ [q.1]).length = newW - E.length - 1 from by
          simp only [List.length_append, List.length_singleton, List.length_cons, List.length_nil]; omega])
        (by rw [show newW - (D ++ [q.2]).length = newW - D.length - 1 from by
          simp only [List.length_append, List.length_singleton, List.length_cons, List.length_nil]; omega])
        (by simp [hD])
        (by simp)
        (by simp only [List.length_append, List.length_singleton,
          List.length_cons, List.length_nil] at h5 ⊢; omega)
        (by
          intro e he r hr
          rcases List.mem_append.mp he with heE | heq
          · exact h6 e heE r (List.mem_cons_of_mem _ hr)
          · rw [List.mem_singleton] at heq
            subst heq
            exact (List.pairwise_cons.mp h7).1 r hr)
        ((List.pairwise_cons.mp h7).2)
    refine ⟨fm, ?_, ihpfx, ihts, ?_, ?_, ?_⟩
    · show ((FlatNode.find_pos m q.1).bind
          (fun idx => m.insert_child idx q.1 q.2)).bind
        (fun m2 => rest.foldlM (fun fn (q : Nat × α) =>
          (FlatNode.find_pos fn q.1).bind
            (fun idx => fn.insert_child idx q.1 q.2)) m2) = some fm
      rw [hfp]
      show (FlatNode.insert_child m E.length q.1 q.2).bind
        (fun m2 => rest.foldlM (fun fn (q : Nat × α) =>
          (FlatNode.find_pos fn q.1).bind
            (fun idx => fn.insert_child idx q.1 q.2)) m2) = some fm
      rw [hstep]
      exact ihfold
    · rw [ihnum]
      simp only [List.length_append, List.length_singleton, List.length_cons,
        List.length_nil]
      omega
    · rw [ihkeys]
      rw [show (E ++ [q.1]) ++ rest.map Prod.fst
          = E ++ (q :: rest).map Prod.fst from by simp]
      rw [show newW - ((E ++ [q.1]).length + rest.length)
          = newW - (E.length + (q :: rest).length) from by
        simp only [List.length_append, List.length_singleton, List.length_cons,
          List.length_nil]
        omega]
    · rw [ihch]
      rw [show (D ++ [q.2]) ++ rest.map Prod.snd
          = D ++ (q :: rest).map Prod.snd from by simp]
      rw [show newW - ((D ++ [q.2]).length + rest.length)
          = newW - (D.length + (q :: rest).length) from by
        simp only [List.length_append, List.length_singleton, List.length_cons,
          List.length_nil]
        omega]

/-- The copy loop of `FlatNode::grow`, run over a fully occupied prefix,
equals a plain fold of `Node48.insert_child` over the key/child pairs. -/
theorem growGo_extract (sk : List Nat) (sc : List (Option α)) (es : List Nat)
    (ds : List α) (nc : Nat)
    (hk : sk.take nc = es) (hc : sc.take nc = ds.map some)
    (hnck : nc ≤ sk.length) (hncc : nc ≤ sc.length) :
    ∀ i, i ≤ nc → ∀ start : Node48 α,
      growGo sk sc i start
        = some (((es.zip ds).take i).foldl
            (fun acc q => acc.insert_child q.1 q.2) start) := by
  have heslen : es.length = nc := by
    rw [← hk, List.length_take]
    omega
  have hdslen : ds.length = nc := by
    have h := congrArg List.length hc
    simp only [List.length_take, List.length_map] at h
    omega
  intro i
  induction i with
  | zero =>
    intro _ start
    rfl
  | succ i ih =>
    intro hsucc start
    have hi : i < nc := by omega
    have hki : sk[i]? = some (es.get ⟨i, by omega⟩) := by
      have h1 : (sk.take nc)[i]? = sk[i]? := by
        rw [List.getElem?_take, if_pos (by omega)]
      rw [← h1, hk, List.getElem?_eq_getElem (by omega)]
      rfl
    have hci : sc[i]? = some (some (ds.get ⟨i, by omega⟩)) := by
      have h1 : (sc.take nc)[i]? = sc[i]? := by
        rw [List.getElem?_take, if_pos (by omega)]
      rw [← h1, hc, List.getElem?_map, List.getElem?_eq_getElem (by omega)]
      rfl
    have hzip : (es.zip ds)[i]?
        = some ((es.get ⟨i, by omega⟩), (ds.get ⟨i, by omega⟩)) := by
      rw [List.getElem?_eq_getElem (by
        rw [List.length_zip]
        omega)]
      rw [List.getElem_zip]
      rfl
    show (growGo sk sc i start).bind (fun m1 =>
        (sk[i]?).bind (fun k =>
          (sc[i]?).bind (fun ch =>
            match ch with
            | some child => some (m1.insert_child k child)
            | none => some m1))) = _
    rw [ih (by omega) start, hki, hci]
    rw [show (es.zip ds).take (i + 1)
        = (es.zip ds).take i
          ++ [((es.get ⟨i, by omega⟩), (ds.get ⟨i, by omega⟩))] from by
      rw [List.take_succ, hzip]
      rfl]
    rw [List.foldl_append]
    rfl

/-- A fresh `Node48` resolves no byte. -/
theorem node48_new_find_child (pfx : List Nat) (b : Nat) :
    Node48.find_child (Node48.new pfx : Node48 α) b = none := by
  show (vaGet (List.replicate 256 none) b).bind
    (fun idx => vaGet (Node48.new pfx : Node48 α).children idx) = none
  rw [vaGet, List.getElem?_replicate]
  split <;> rfl

/-- A fresh `Node48` has an empty byte index. -/
theorem node48_new_index_empty (pfx : List Nat) (b j : Nat) :
    vaGet (Node48.new pfx : Node48 α).child_ptr_indexes b = some j → False := by
  intro hbj
  rw [show (Node48.new pfx : Node48 α).child_ptr_indexes
      = List.replicate 256 none from rfl] at hbj
  rw [vaGet, List.getElem?_replicate] at hbj
  split at hbj <;> exact Option.noConfusion hbj

/-- `update_ts` does not change what `find_child` returns on a Node48. -/
theorem node48_update_ts_find_child (tsOf : α → Nat) (n : Node48 α) (b : Nat) :
    Node48.find_child (Node48.update_ts tsOf n) b = Node48.find_child n b := by
  obtain ⟨hi, hc2, _⟩ := node48_update_ts_fields tsOf n
  show (vaGet (Node48.update_ts tsOf n).child_ptr_indexes b).bind
    (fun idx => vaGet (Node48.update_ts tsOf n).children idx) = _
  rw [hi, hc2]
  rfl

/-- `FlatNode::grow` succeeds on a well-formed node with at most 48 children
and distinct in-range keys, preserves `num_children`, and the resulting
`Node48` resolves every byte to exactly the child the flat node held. -/
theorem grow_flat_preserves (tsOf : α → Nat) (n : FlatNode α)
    (es : List Nat) (ds : List α)
    (hk : n.keys.take n.num_children = es)
    (hc : n.children.take n.num_children = ds.map some)
    (hnck : n.num_children ≤ n.keys.length)
    (hncc : n.num_children ≤ n.children.length)
    (hnc48 : n.num_children ≤ 48)
    (hbytes : ∀ k ∈ es, k < 256)
    (hnodup : es.Nodup) :
    ∃ m, FlatNode.grow tsOf n = some m ∧
      m.num_children = n.num_children ∧
      ∀ b, n.find_child b = some (Node48.find_child m b) := by
  have heslen : es.length = n.num_children := by
    rw [← hk, List.length_take]
    omega
  have hdslen : ds.length = n.num_children := by
    have h := congrArg List.length hc
    simp only [List.length_take, List.length_map] at h
    omega
  have hziplen : (es.zip ds).length = n.num_children := by
    rw [List.length_zip]
    omega
  have hgrow : growGo n.keys n.children n.num_children (Node48.new n.pfx)
      = some ((es.zip ds).foldl
          (fun acc q => acc.insert_child q.1 q.2) (Node48.new n.pfx)) := by
    rw [growGo_extract n.keys n.children es ds n.num_children hk hc hnck hncc
      n.num_children (Nat.le_refl _) (Node48.new n.pfx)]
    rw [List.take_of_length_le (by omega)]
  obtain ⟨hnum48, hfind48⟩ := build48_loop (es.zip ds) [] (fun _ => none)
    (Node48.new n.pfx) rfl rfl
    (fun b => node48_new_find_child n.pfx b)
    (fun b j hbj => absurd hbj (fun hbj => node48_new_index_empty n.pfx b j hbj))
    (by simp [Node48.new])
    (by simp only [List.length_nil]; omega)
    (by
      intro q hq
      rcases q with ⟨k, d⟩
      exact hbytes k (List.of_mem_zip hq).1)
    (by rw [List.map_fst_zip es ds (by omega)]; exact hnodup)
  refine ⟨Node48.update_ts tsOf ((es.zip ds).foldl
      (fun acc q => acc.insert_child q.1 q.2) (Node48.new n.pfx)), ?_, ?_, ?_⟩
  · show (growGo n.keys n.children n.num_children (Node48.new n.pfx)).bind
      (fun n48 => some (Node48.update_ts tsOf n48)) = _
    rw [hgrow]
    rfl
  · rw [(node48_update_ts_fields tsOf _).2.2, hnum48]
    simp only [List.length_nil]
    omega
  · intro b
    rw [node48_update_ts_find_child, hfind48 b, Option.or_none,
      flat_find_child_pairs n es ds hk hc hnck hncc b]

/-- An all-empty slot vector resolves nothing. -/
theorem vaGet_replicate_none (k b : Nat) :
    vaGet (List.replicate k (none : Option β)) b = none := by
  rw [vaGet, List.getElem?_replicate]
  split <;> rfl

/-- `update_ts` does not change what `find_child` returns on a Node256. -/
theorem node256_update_ts_find_child (tsOf : α → Nat) (n : Node256 α) (b : Nat) :
    Node256.find_child (Node256.update_ts tsOf n) b = Node256.find_child n b := by
  obtain ⟨hc2, _⟩ := node256_update_ts_fields tsOf n
  show vaGet (Node256.update_ts tsOf n).children b = _
  rw [hc2]
  rfl

/-- The VecArray iterator's pairs read back: the slot at an iterated index
holds the iterated value. -/
theorem vaIter_diag (l : List (Option β)) :
    ∀ p ∈ vaIter l, vaGet l p.1 = some p.2 := by
  intro p hp
  obtain ⟨j, hj1, hj2⟩ := (vaIterGo_mem l 0 p).mp hp
  have hj1b : p.1 = j := by omega
  rw [vaGet, hj1b, hj2]
  rfl

/-- The iterated indices of a 256-slot vector are bytes. -/
theorem vaIter_bytes (l : List (Option β)) (hl : l.length = 256) :
    ∀ p ∈ vaIter l, p.1 < 256 := by
  intro p hp
  have := (vaIterGo_fst_bounds l 0 p hp).2
  omega

/-- The iterated indices are distinct. -/
theorem vaIter_fst_nodup (l : List (Option β)) :
    ((vaIter l).map Prod.fst).Nodup := by
  have hpw := vaIterGo_pairwise l 0
  have hmap : ((vaIterGo 0 l).map Prod.fst).Pairwise (· < ·) :=
    (List.pairwise_map).mpr hpw
  exact hmap.imp (fun h => Nat.ne_of_lt h)

/-- `Node48::grow` succeeds on a well-formed node (every indexed slot is
occupied), preserves `num_children`, and the resulting `Node256` resolves
every byte exactly as the `Node48` did. -/
theorem grow48_preserves (tsOf : α → Nat) (n : Node48 α)
    (hidx : n.child_ptr_indexes.length = 256)
    (hocc : ∀ p ∈ vaIter n.child_ptr_indexes, (vaGet n.children p.2).isSome)
    (hnum : n.num_children = (vaIter n.child_ptr_indexes).length) :
    ∃ m, Node48.grow tsOf n = some m ∧
      m.num_children = n.num_children ∧
      ∀ b, Node48.find_child n b = Node256.find_child m b := by
  obtain ⟨L, hLfst, hLassoc, hLfold⟩ := foldlM_resolve_pairs n.children
    (fun (acc : Node256 α) b c => some (acc.insert_child b c))
    (vaIter n.child_ptr_indexes) hocc
  have hfold := hLfold (Node256.new n.pfx)
  rw [foldlM_pure] at hfold
  have hLlen : L.length = (vaIter n.child_ptr_indexes).length := by
    have h := congrArg List.length hLfst
    simpa using h
  have hbytes : ∀ q ∈ L, q.1 < 256 := by
    intro q hq
    have hin : q.1 ∈ L.map Prod.fst := List.mem_map_of_mem Prod.fst hq
    rw [hLfst] at hin
    obtain ⟨p, hp, hpeq⟩ := List.mem_map.mp hin
    have := vaIter_bytes n.child_ptr_indexes hidx p hp
    omega
  have hnodupL : (L.map Prod.fst).Nodup := by
    rw [hLfst]
    exact vaIter_fst_nodup n.child_ptr_indexes
  obtain ⟨hnum256, hfind256⟩ := build256_loop L (fun _ => none)
    (Node256.new n.pfx)
    (by simp [Node256.new])
    (fun b => vaGet_replicate_none 256 b)
    hbytes hnodupL
  refine ⟨Node256.update_ts tsOf (L.foldl (fun acc q => acc.insert_child q.1 q.2)
      (Node256.new n.pfx)), ?_, ?_, ?_⟩
  · show ((vaIter n.child_ptr_indexes).foldlM (fun (m : Node256 α) (kp : Nat × Nat) => do
        let child ← vaGet n.children kp.2
        some (m.insert_child kp.1 child)) (Node256.new n.pfx)).bind
      (fun n256 => some (Node256.update_ts tsOf n256)) = _
    rw [hfold]
    rfl
  · rw [(node256_update_ts_fields tsOf _).2, hnum256]
    show 0 + L.length = n.num_children
    omega
  · intro b
    rw [node256_update_ts_find_child, hfind256 b, Option.or_none, hLassoc b]
    show (vaGet n.child_ptr_indexes b).bind (fun idx => vaGet n.children idx) = _
    rw [vaGet_eq_assocFind]

/-- `Node256::shrink` succeeds when at most 48 slots are occupied, preserves
`num_children`, and the resulting `Node48` resolves every byte exactly as the
`Node256` did. -/
theorem shrink256_preserves (tsOf : α → Nat) (n : Node256 α)
    (hch : n.children.length = 256)
    (hnum : n.num_children = (vaIter n.children).length)
    (hnum48 : n.num_children ≤ 48) :
    ∃ m, Node256.shrink tsOf n = some m ∧
      m.num_children = n.num_children ∧
      ∀ b, Node256.find_child n b = Node48.find_child m b := by
  have hdiagfold := foldlM_resolve_diag n.children
    (fun (acc : Node48 α) b c => some (acc.insert_child b c))
    (vaIter n.children) (vaIter_diag n.children) (Node48.new n.pfx)
  rw [foldlM_pure] at hdiagfold
  obtain ⟨hnum48b, hfind48b⟩ := build48_loop (vaIter n.children) []
    (fun _ => none) (Node48.new n.pfx) rfl rfl
    (fun b => node48_new_find_child n.pfx b)
    (fun b j hbj => absurd hbj (fun hbj => node48_new_index_empty n.pfx b j hbj))
    (by simp [Node48.new])
    (by simp only [List.length_nil]; omega)
    (vaIter_bytes n.children hch)
    (vaIter_fst_nodup n.children)
  refine ⟨Node48.update_ts tsOf ((vaIter n.children).foldl
      (fun acc q => acc.insert_child q.1 q.2) (Node48.new n.pfx)), ?_, ?_, ?_⟩
  · show ((vaIterKeys n.children).foldlM (fun (m : Node48 α) key => do
        let child ← vaGet n.children key
        some (m.insert_child key child)) (Node48.new n.pfx)).bind
      (fun indexed => some (Node48.update_ts tsOf indexed)) = _
    rw [show vaIterKeys n.children = (vaIter n.children).map Prod.fst from rfl]
    rw [hdiagfold]
    rfl
  · rw [(node48_update_ts_fields tsOf _).2.2, hnum48b]
    simp only [List.length_nil]
    omega
  · intro b
    rw [node48_update_ts_find_child, hfind48b b, Option.or_none,
      ← vaGet_eq_assocFind]
    rfl

/-- `update_ts` does not change what `find_child` returns on a flat node. -/
theorem flat_update_ts_find_child (tsOf : α → Nat) (n : FlatNode α) (b : Nat) :
    (FlatNode.update_ts tsOf n).find_child b = n.find_child b := by
  obtain ⟨hk, hc, hn⟩ := flat_update_ts_fields tsOf n
  rw [FlatNode.find_child, FlatNode.find_child, FlatNode.index, FlatNode.index,
    hk, hc, hn]

/-- `Node48::shrink` succeeds on a well-formed node whose children fit the new
width, preserves `num_children`, and the resulting flat node resolves every
byte (without panicking) to exactly the child the `Node48` held. -/
theorem shrink48_preserves (tsOf : α → Nat) (n : Node48 α) (newW : Nat)
    (hocc : ∀ p ∈ vaIter n.child_ptr_indexes, (vaGet n.children p.2).isSome)
    (hnum : n.num_children = (vaIter n.child_ptr_indexes).length)
    (hncW : n.num_children ≤ newW) :
    ∃ m, Node48.shrink tsOf n newW = some m ∧
      m.num_children = n.num_children ∧
      ∀ b, m.find_child b = some (Node48.find_child n b) := by
  obtain ⟨L, hLfst, hLassoc, hLfold⟩ := foldlM_resolve_pairs n.children
    (fun (fn : FlatNode α) k child => do
      let idx ← FlatNode.find_pos fn k
      fn.insert_child idx k child)
    (vaIter n.child_ptr_indexes) hocc
  have hLlen : L.length = (vaIter n.child_ptr_indexes).length := by
    have h := congrArg List.length hLfst
    simpa using h
  have hpwL : L.Pairwise (fun p q => p.1 < q.1) := by
    have h1 : (L.map Prod.fst).Pairwise (· < ·) := by
      rw [hLfst]
      exact (List.pairwise_map).mpr (vaIterGo_pairwise n.child_ptr_indexes 0)
    exact (List.pairwise_map).mp h1
  obtain ⟨fm, hfmfold, hfmpfx, hfmts, hfmnum, hfmkeys, hfmch⟩ :=
    buildFlat_loop L [] [] (FlatNode.new n.pfx newW) newW rfl rfl rfl rfl
      (by simp only [List.length_nil]; omega)
      (fun e he => absurd he (List.not_mem_nil e))
      hpwL
  simp only [List.nil_append, List.length_nil, Nat.zero_add]
    at hfmnum hfmkeys hfmch
  have hzipL : (L.map Prod.fst).zip (L.map Prod.snd) = L := by
    have h := List.zip_unzip L
    rw [List.unzip_eq_map] at h
    exact h
  have hk : fm.keys.take fm.num_children = L.map Prod.fst := by
    rw [hfmkeys, hfmnum]
    exact List.take_left' (by simp)
  have hc : fm.children.take fm.num_children = (L.map Prod.snd).map some := by
    rw [hfmch, hfmnum]
    exact List.take_left' (by simp)
  have hb1 : fm.num_children ≤ fm.keys.length := by
    rw [hfmkeys, hfmnum]
    simp only [List.length_append, List.length_map, List.length_replicate]
    omega
  have hb2 : fm.num_children ≤ fm.children.length := by
    rw [hfmch, hfmnum]
    simp only [List.length_append, List.length_map, List.length_replicate]
    omega
  refine ⟨FlatNode.update_ts tsOf fm, ?_, ?_, ?_⟩
  · show ((vaIter n.child_ptr_indexes).foldlM
        (fun (fn : FlatNode α) (kp : Nat × Nat) => do
          let child ← vaGet n.children kp.2
          let idx ← fn.find_pos kp.1
          fn.insert_child idx kp.1 child) (FlatNode.new n.pfx newW)).bind
      (fun fnode => some (FlatNode.update_ts tsOf fnode)) = _
    rw [hLfold (FlatNode.new n.pfx newW)]
    show (L.foldlM (fun fn (q : Nat × α) =>
        (FlatNode.find_pos fn q.1).bind
          (fun idx => fn.insert_child idx q.1 q.2)) (FlatNode.new n.pfx newW)).bind
      (fun fnode => some (FlatNode.update_ts tsOf fnode)) = _
    rw [hfmfold]
    rfl
  · rw [(flat_update_ts_fields tsOf fm).2.2, hfmnum]
    omega
  · intro b
    rw [flat_update_ts_find_child,
      flat_find_child_pairs fm (L.map Prod.fst) (L.map Prod.snd) hk hc hb1 hb2 b,
      hzipL, hLassoc b, ← vaGet_eq_assocFind]
    rfl

/-- C7: every tier conversion — `FlatNode::resize` (when `num_children` fits
the new width), `FlatNode::grow`, `Node48::shrink` (when `num_children` fits
the new width), `Node48::grow` and `Node256::shrink` — succeeds on a
well-formed node, preserves the byte-to-child mapping (`find_child` on the
converted node returns the same child as on the original, at every byte) and
leaves `num_children` unchanged. -/
theorem claim_C7_conversions_preserve (α : Type) (tsOf : α → Nat) :
    (∀ (n : FlatNode α) (newW : Nat),
      n.children.length = n.keys.length →
      n.num_children ≤ n.keys.length →
      n.num_children ≤ newW →
      ∃ m, FlatNode.resize tsOf n newW = some m ∧
        m.num_children = n.num_children ∧
        ∀ b, m.find_child b = n.find_child b) ∧
    (∀ (n : FlatNode α) (es : List Nat) (ds : List α),
      n.keys.take n.num_children = es →
      n.children.take n.num_children = ds.map some →
      n.num_children ≤ n.keys.length →
      n.num_children ≤ n.children.length →
      n.num_children ≤ 48 →
      (∀ k ∈ es, k < 256) →
      es.Nodup →
      ∃ m, FlatNode.grow tsOf n = some m ∧
        m.num_children = n.num_children ∧
        ∀ b, n.find_child b = some (Node48.find_child m b)) ∧
    (∀ (n : Node48 α) (newW : Nat),
      (∀ p ∈ vaIter n.child_ptr_indexes, (vaGet n.children p.2).isSome) →
      n.num_children = (vaIter n.child_ptr_indexes).length →
      n.num_children ≤ newW →
      ∃ m, Node48.shrink tsOf n newW = some m ∧
        m.num_children = n.num_children ∧
        ∀ b, m.find_child b = some (Node48.find_child n b)) ∧
    (∀ (n : Node48 α),
      n.child_ptr_indexes.length = 256 →
      (∀ p ∈ vaIter n.child_ptr_indexes, (vaGet n.children p.2).isSome) →
      n.num_children = (vaIter n.child_ptr_indexes).length →
      ∃ m, Node48.grow tsOf n = some m ∧
        m.num_children = n.num_children ∧
        ∀ b, Node48.find_child n b = Node256.find_child m b) ∧
    (∀ (n : Node256 α),
      n.children.length = 256 →
      n.num_children = (vaIter n.children).length →
      n.num_children ≤ 48 →
      ∃ m, Node256.shrink tsOf n = some m ∧
        m.num_children = n.num_children ∧
        ∀ b, Node256.find_child n b = Node48.find_child m b) :=
  ⟨fun n newW h1 h2 h3 => resize_preserves tsOf n newW h1 h2 h3,
   fun n es ds h1 h2 h3 h4 h5 h6 h7 =>
     grow_flat_preserves tsOf n es ds h1 h2 h3 h4 h5 h6 h7,
   fun n newW h1 h2 h3 => shrink48_preserves tsOf n newW h1 h2 h3,
   fun n h1 h2 h3 => grow48_preserves tsOf n h1 h2 h3,
   fun n h1 h2 h3 => shrink256_preserves tsOf n h1 h2 h3⟩

/-- C7 witness: the five conversions run on concrete nodes — a width-4 flat
node holding bytes 1 and 2, a `Node48` holding bytes 3 and 5, a `Node256`
holding bytes 7 and 9 — each succeeding with the count and the byte-to-child
view preserved. -/
theorem claim_C7_witness :
    (∃ m, FlatNode.resize (fun v => v)
        (⟨[], 7, [1, 2, 0, 0], [some 10, some 20, none, none], 2⟩ :
          FlatNode Nat) 16 = some m ∧
      m.num_children
        = (⟨[], 7, [1, 2, 0, 0], [some 10, some 20, none, none], 2⟩ :
            FlatNode Nat).num_children ∧
      ∀ b, m.find_child b
        = (⟨[], 7, [1, 2, 0, 0], [some 10, some 20, none, none], 2⟩ :
            FlatNode Nat).find_child b) ∧
    (∃ m, FlatNode.grow (fun v => v)
        (⟨[], 7, [1, 2, 0, 0], [some 10, some 20, none, none], 2⟩ :
          FlatNode Nat) = some m ∧
      m.num_children
        = (⟨[], 7, [1, 2, 0, 0], [some 10, some 20, none, none], 2⟩ :
            FlatNode Nat).num_children ∧
      ∀ b, (⟨[], 7, [1, 2, 0, 0], [some 10, some 20, none, none], 2⟩ :
            FlatNode Nat).find_child b
        = some (Node48.find_child m b)) ∧
    (∃ m, Node48.shrink (fun v => v)
        (Node48.insert_child (Node48.insert_child (Node48.new []) 3 (30 : Nat)) 5 31)
        4 = some m ∧
      m.num_children
        = (Node48.insert_child (Node48.insert_child (Node48.new []) 3 (30 : Nat))
            5 31).num_children ∧
      ∀ b, m.find_child b
        = some (Node48.find_child
            (Node48.insert_child (Node48.insert_child (Node48.new []) 3 (30 : Nat))
              5 31) b)) ∧
    (∃ m, Node48.grow (fun v => v)
        (Node48.insert_child (Node48.insert_child (Node48.new []) 3 (30 : Nat)) 5 31)
        = some m ∧
      m.num_children
        = (Node48.insert_child (Node48.insert_child (Node48.new []) 3 (30 : Nat))
            5 31).num_children ∧
      ∀ b, Node48.find_child
          (Node48.insert_child (Node48.insert_child (Node48.new []) 3 (30 : Nat))
            5 31) b
        = Node256.find_child m b) ∧
    (∃ m, Node256.shrink (fun v => v)
        (Node256.insert_child (Node256.insert_child (Node256.new []) 7 (40 : Nat)) 9 41)
        = some m ∧
      m.num_children
        = (Node256.insert_child (Node256.insert_child (Node256.new []) 7 (40 : Nat))
            9 41).num_children ∧
      ∀ b, Node256.find_child
          (Node256.insert_child (Node256.insert_child (Node256.new []) 7 (40 : Nat))
            9 41) b
        = Node48.find_child m b) := by
  refine ⟨?_, ?_, ?_, ?_, ?_⟩
  · exact (claim_C7_conversions_preserve Nat (fun v => v)).1 _ 16 rfl
      (by decide) (by decide)
  · exact (claim_C7_conversions_preserve Nat (fun v => v)).2.1 _ [1, 2] [10, 20]
      rfl rfl (by decide) (by decide) (by decide) (by decide) (by decide)
  · exact (claim_C7_conversions_preserve Nat (fun v => v)).2.2.1 _ 4
      (by decide) (by decide) (by decide)
  · exact (claim_C7_conversions_preserve Nat (fun v => v)).2.2.2.1 _
      (by decide) (by decide) (by decide)
  · exact (claim_C7_conversions_preserve Nat (fun v => v)).2.2.2.2 _
      (by decide) (by decide) (by decide)

end Tart
